import Mathlib

/-!
# httpreturnchecker: the analyzer of `cmd/analyzer.go`

A shallow embedding of the analyzer's logic.  The Go syntax tree (`go/ast`) is
an external library: it is represented by three mutually recursive sorts,
`Expr` (an `ast.Expr`), `Stmt` (an `ast.Stmt`) and `Node` (any `ast.Node`).
Only the node kinds that the analyzer tells apart have a constructor of their
own; every other kind is an `other` node that lists its children in the order
in which `ast.Walk` visits them.

An expression statement carries its source position `pos`.  The analyzer
compares statements by pointer (`stmt == target`, `exprStmt == lastStmt`); in a
parsed file two distinct expression statements start at distinct positions, so
the comparison is embedded as the comparison of positions, and the theorems
that depend on node identity assume that the positions of the expression
statements of a body are pairwise distinct.
-/

namespace HttpReturnChecker

/-! ## Syntax trees -/

mutual
/-- Go expressions (`ast.Expr`). -/
inductive Expr where
  /-- An `*ast.Ident`. -/
  | ident (name : String)
  /-- An `*ast.SelectorExpr`, `X.Sel`. -/
  | selectorExpr (x : Expr) (sel : String)
  /-- An `*ast.StarExpr`, `*X`. -/
  | starExpr (x : Expr)
  /-- An `*ast.CallExpr`, `Fun(Args...)`. -/
  | callExpr (fn : Expr) (args : List Expr)
  /-- Every other expression kind (literals, function literals, operators,
  type expressions, ...), with its children in `ast.Walk` order. -/
  | other (kind : String) (children : List Node)
/-- Go statements (`ast.Stmt`). -/
inductive Stmt where
  /-- An `*ast.ExprStmt` at source position `pos` with expression `X`. -/
  | exprStmt (pos : Nat) (x : Expr)
  /-- An `*ast.ReturnStmt`. -/
  | returnStmt (results : List Expr)
  /-- An `*ast.EmptyStmt`. -/
  | emptyStmt
  /-- An `*ast.DeclStmt` holding a declaration. -/
  | declStmt (decl : Node)
  /-- An `*ast.BlockStmt` with its statement list `List`. -/
  | blockStmt (list : List Stmt)
  /-- Every other statement kind (`if`, `for`, `switch`, case clauses,
  assignments, `go`, `defer`, labels, ...), with its children in `ast.Walk`
  order. -/
  | other (kind : String) (children : List Node)
/-- Any syntax node (`ast.Node`). -/
inductive Node where
  | expr (e : Expr)
  | stmt (s : Stmt)
  /-- A node that is neither an expression nor a statement (declarations,
  specs, field lists, ...), with its children in `ast.Walk` order. -/
  | other (kind : String) (children : List Node)
end

/-- One entry of a parameter list (`ast.Field`): the declared names and the type. -/
structure Field where
  names : List String
  type : Expr

/-- The parts of an `ast.FuncDecl` the analyzer reads: `Type.Params` (a
`*ast.FieldList`, possibly nil; `some l` is its `List`) and `Body` (a
`*ast.BlockStmt`, possibly nil; `some l` is its `List`). -/
structure FuncDecl where
  params : Option (List Field)
  body : Option (List Stmt)

/-- A report of the analysis pass: `pass.Reportf(pos, message)`. -/
structure Diagnostic where
  pos : Nat
  message : String
deriving DecidableEq, Repr

/-! ### Node kinds without a constructor of their own, children in `ast.Walk` order -/

/-- A basic literal: `*ast.BasicLit`. -/
def basicLit (value : String) : Expr := .other ("BasicLit " ++ value) []

/-- A function literal: `*ast.FuncLit`, children `Type`, `Body`. -/
def funcLit (type : Node) (body : List Stmt) : Expr :=
  .other "FuncLit" [type, .stmt (.blockStmt body)]

/-- A function type: `*ast.FuncType` without parameters and results. -/
def funcType : Node := .expr (.other "FuncType" [.other "FieldList" []])

/-- An if statement: `*ast.IfStmt`, children `Init`, `Cond`, `Body`, `Else`. -/
def ifStmt (init : Option Stmt) (cond : Expr) (body : List Stmt) (els : Option Stmt) : Stmt :=
  .other "IfStmt"
    (init.toList.map Node.stmt ++ [.expr cond, .stmt (.blockStmt body)] ++ els.toList.map Node.stmt)

/-- A for statement: `*ast.ForStmt`, children `Init`, `Cond`, `Post`, `Body`. -/
def forStmt (init : Option Stmt) (cond : Option Expr) (post : Option Stmt) (body : List Stmt) :
    Stmt :=
  .other "ForStmt"
    (init.toList.map Node.stmt ++ cond.toList.map Node.expr ++ post.toList.map Node.stmt
      ++ [.stmt (.blockStmt body)])

/-- A case clause: `*ast.CaseClause`, children `List` (expressions) then `Body`
(statements).  The body is a plain statement list, not a `BlockStmt`. -/
def caseClause (list : List Expr) (body : List Stmt) : Stmt :=
  .other "CaseClause" (list.map Node.expr ++ body.map Node.stmt)

/-- A switch statement: `*ast.SwitchStmt`, children `Init`, `Tag`, `Body`; the
statements of `Body` are the case clauses. -/
def switchStmt (init : Option Stmt) (tag : Option Expr) (body : List Stmt) : Stmt :=
  .other "SwitchStmt"
    (init.toList.map Node.stmt ++ tag.toList.map Node.expr ++ [.stmt (.blockStmt body)])

/-- A communication clause of a select: `*ast.CommClause`, children `Comm`, `Body`. -/
def commClause (comm : Option Stmt) (body : List Stmt) : Stmt :=
  .other "CommClause" (comm.toList.map Node.stmt ++ body.map Node.stmt)

/-- A select statement: `*ast.SelectStmt`, child `Body`. -/
def selectStmt (body : List Stmt) : Stmt :=
  .other "SelectStmt" [.stmt (.blockStmt body)]

/-- A local variable declaration statement `var names = values`:
a `DeclStmt` of a `GenDecl` with one `ValueSpec`. -/
def varDecl (names : List String) (values : List Expr) : Stmt :=
  .declStmt (.other "GenDecl"
    [.other "ValueSpec" (names.map (fun n => Node.expr (.ident n)) ++ values.map Node.expr)])

/-! ## `ast.Inspect` -/

/- `ast.Inspect(root, f)` walks the tree depth first: it calls `f(node)` and, when
that returns true, walks the children of `node` in order (and then calls
`f(nil)`; both callbacks of the analyzer do nothing on nil, so that call is
left out).  The callbacks of the analyzer update captured variables; here the
callback passes its state along and returns it with the boolean. -/
mutual
/-- The walk of `ast.Inspect` from an expression. -/
def Expr.inspect {σ : Type} (f : Node → σ → σ × Bool) : Expr → σ → σ
  | .ident name, s => (f (.expr (.ident name)) s).1
  | .selectorExpr x sel, s =>
    let r := f (.expr (.selectorExpr x sel)) s
    if r.2 then (f (.expr (.ident sel)) (x.inspect f r.1)).1 else r.1
  | .starExpr x, s =>
    let r := f (.expr (.starExpr x)) s
    if r.2 then x.inspect f r.1 else r.1
  | .callExpr fn args, s =>
    let r := f (.expr (.callExpr fn args)) s
    if r.2 then inspectExprs f args (fn.inspect f r.1) else r.1
  | .other kind children, s =>
    let r := f (.expr (.other kind children)) s
    if r.2 then inspectNodes f children r.1 else r.1
/-- The walk of `ast.Inspect` from a statement. -/
def Stmt.inspect {σ : Type} (f : Node → σ → σ × Bool) : Stmt → σ → σ
  | .exprStmt pos x, s =>
    let r := f (.stmt (.exprStmt pos x)) s
    if r.2 then x.inspect f r.1 else r.1
  | .returnStmt results, s =>
    let r := f (.stmt (.returnStmt results)) s
    if r.2 then inspectExprs f results r.1 else r.1
  | .emptyStmt, s => (f (.stmt .emptyStmt) s).1
  | .declStmt decl, s =>
    let r := f (.stmt (.declStmt decl)) s
    if r.2 then decl.inspect f r.1 else r.1
  | .blockStmt list, s =>
    let r := f (.stmt (.blockStmt list)) s
    if r.2 then inspectStmts f list r.1 else r.1
  | .other kind children, s =>
    let r := f (.stmt (.other kind children)) s
    if r.2 then inspectNodes f children r.1 else r.1
/-- The walk of `ast.Inspect` from any node. -/
def Node.inspect {σ : Type} (f : Node → σ → σ × Bool) : Node → σ → σ
  | .expr e, s => e.inspect f s
  | .stmt st, s => st.inspect f s
  | .other kind children, s =>
    let r := f (.other kind children) s
    if r.2 then inspectNodes f children r.1 else r.1
/-- The walk over a list of expressions, in order. -/
def inspectExprs {σ : Type} (f : Node → σ → σ × Bool) : List Expr → σ → σ
  | [], s => s
  | e :: es, s => inspectExprs f es (e.inspect f s)
/-- The walk over a list of statements, in order. -/
def inspectStmts {σ : Type} (f : Node → σ → σ × Bool) : List Stmt → σ → σ
  | [], s => s
  | st :: sts, s => inspectStmts f sts (st.inspect f s)
/-- The walk over a list of nodes, in order. -/
def inspectNodes {σ : Type} (f : Node → σ → σ × Bool) : List Node → σ → σ
  | [], s => s
  | n :: ns, s => inspectNodes f ns (n.inspect f s)
end

/-! ## The analyzer -/

/-- The Go comparison `stmt == target` of a statement with an `*ast.ExprStmt`:
true when `stmt` is the expression statement at the position of the target. -/
def Stmt.isExprStmtAt (stmt : Stmt) (target : Nat) : Bool :=
  match stmt with
  | .exprStmt pos _ => pos == target
  | _ => false

/-- `isEmptyStatement`: empty statements and declaration statements. -/
def isEmptyStatement (stmt : Stmt) : Bool :=
  match stmt with
  | .emptyStmt => true
  | .declStmt _ => true
  | _ => false

/-- `getLastNonEmptyStatement`: scanning from the end, the first statement that
is not empty; `none` is the nil result. -/
def getLastNonEmptyStatement (stmts : List Stmt) : Option Stmt :=
  stmts.reverse.find? (fun stmt => !isEmptyStatement stmt)

/-- The callback of `findParentBlock`: at a block whose list holds the target
it records the block and does not descend. -/
def findParentBlockVisit (target : Nat) (n : Node) (result : Option (List Stmt)) :
    Option (List Stmt) × Bool :=
  match n with
  | .stmt (.blockStmt list) =>
    if list.any (fun stmt => stmt.isExprStmtAt target) then (some list, false) else (result, true)
  | _ => (result, true)

/-- `findParentBlock`: the statement list of the block found, `none` for nil. -/
def findParentBlock (root : Node) (target : Nat) : Option (List Stmt) :=
  root.inspect (findParentBlockVisit target) none

/-- The test `arg, ok := args[0].(*ast.Ident); ok && arg.Name == writerName`
shared by the four pattern functions, on a non-empty argument list. -/
def firstArgIsIdent (args : List Expr) (writerName : String) : Bool :=
  match args with
  | .ident name :: _ => name == writerName
  | _ => false

/-- `isFmtPrint`. -/
def isFmtPrint (name : String) : Bool :=
  name == "Fprintf" || name == "Fprint" || name == "Fprintln"

/-- `isJSONEncoderWrite`; `sel` is `sel.Sel.Name`. -/
def isJSONEncoderWrite (sel : String) (args : List Expr) (writerName : String) : Bool :=
  if sel != "NewEncoder" || args.length == 0 then false
  else firstArgIsIdent args writerName

/-- `isFmtWrite`; `sel` is `sel.Sel.Name`. -/
def isFmtWrite (sel : String) (args : List Expr) (writerName : String) : Bool :=
  if !isFmtPrint sel || args.length == 0 then false
  else firstArgIsIdent args writerName

/-- `isIOCopy`; `sel` is `sel.Sel.Name`. -/
def isIOCopy (sel : String) (args : List Expr) (writerName : String) : Bool :=
  if sel != "Copy" || args.length == 0 then false
  else firstArgIsIdent args writerName

/-- `isRenderCall`; `sel` is `sel.Sel.Name`. -/
def isRenderCall (sel : String) (args : List Expr) (writerName : String) : Bool :=
  if sel != "Render" || args.length == 0 then false
  else firstArgIsIdent args writerName

/-- `isWriteToResponseWriter`; `x` is the expression `expr.X` of the statement. -/
def isWriteToResponseWriter (x : Expr) (writerName : String) : Bool :=
  match x with
  | .callExpr (.selectorExpr (.ident name) sel) args =>
    if name == writerName then true
    else if name == "json" then isJSONEncoderWrite sel args writerName
    else if name == "fmt" then isFmtWrite sel args writerName
    else if name == "io" then isIOCopy sel args writerName
    else if name == "render" then isRenderCall sel args writerName
    else false
  | _ => false

/-- `isResponseWriter`. -/
def isResponseWriter (expr : Expr) : Bool :=
  match expr with
  | .selectorExpr (.ident name) sel => if name != "http" then false else sel == "ResponseWriter"
  | _ => false

/-- `isHTTPRequest`. -/
def isHTTPRequest (expr : Expr) : Bool :=
  match expr with
  | .starExpr (.selectorExpr (.ident name) sel) => if name != "http" then false else sel == "Request"
  | _ => false

/-- `isHTTPHandler`. -/
def isHTTPHandler (funcDecl : FuncDecl) : Bool :=
  match funcDecl.params with
  | none => false
  | some list =>
    if list.length != 2 then false
    else
      match list with
      | [p0, p1] => isResponseWriter p0.type && isHTTPRequest p1.type
      | _ => false

/-- The message of every report. -/
def message : String :=
  "response write operation must be followed by return unless it's the last statement"

/-- The loop of `run` that looks for the write in its block:
the first index `i` with `block.List[i] == exprStmt`, `none` for `pos == -1`. -/
def findPos (list : List Stmt) (target : Nat) : Option Nat :=
  match list with
  | [] => none
  | stmt :: rest =>
    if stmt.isExprStmtAt target then some 0 else (findPos rest target).map (fun i => i + 1)

/-- The type test `stmt.(*ast.ReturnStmt)`. -/
def Stmt.isReturnStmt (stmt : Stmt) : Bool :=
  match stmt with
  | .returnStmt _ => true
  | _ => false

/-- The loop of `run` over the statements after the write (`block.List[pos+1:]`):
empty statements are skipped, the first other statement decides. -/
def hasReturn (rest : List Stmt) : Bool :=
  match rest with
  | [] => false
  | stmt :: rest => if isEmptyStatement stmt then hasReturn rest else stmt.isReturnStmt

/-- The callback that `run` hands to `ast.Inspect` for one handler: the state is
the list of reports so far; the callback always asks to descend. -/
def runVisit (body : List Stmt) (writerName : String) (lastStmt : Stmt) (node : Node)
    (reports : List Diagnostic) : List Diagnostic × Bool :=
  match node with
  | .stmt (.exprStmt pos x) =>
    if !isWriteToResponseWriter x writerName then (reports, true)
    else if lastStmt.isExprStmtAt pos then (reports, true)
    else
      match findParentBlock (.stmt (.blockStmt body)) pos with
      | none => (reports, true)
      | some block =>
        match findPos block pos with
        | none => (reports, true)
        | some i =>
          if !hasReturn (block.drop (i + 1)) then (reports ++ [⟨pos, message⟩], true)
          else (reports, true)
  | _ => (reports, true)

/-- The expression `funcDecl.Type.Params.List[0].Names[0].Name`; `none` when an
index is out of range, where Go panics. -/
def writerName (funcDecl : FuncDecl) : Option String :=
  match funcDecl.params with
  | some (p0 :: _) => p0.names.head?
  | _ => none

/-- The function that `run` applies to each function declaration.  The result
is the list of reports in the order they are made; `none` stands for a run-time
panic. -/
def runFuncDecl (funcDecl : FuncDecl) : Option (List Diagnostic) :=
  if !isHTTPHandler funcDecl || funcDecl.body.isNone then some []
  else
    match writerName funcDecl, funcDecl.body with
    | some writerName, some body =>
      match getLastNonEmptyStatement body with
      | none => some []
      | some lastStmt =>
        some ((Node.stmt (.blockStmt body)).inspect (runVisit body writerName lastStmt) [])
    | _, _ => none

/-- `run` over the function declarations of a package, in order: the reports
of all of them, or `none` when the analysis of one of them panics. -/
def run (funcDecls : List FuncDecl) : Option (List Diagnostic) :=
  match funcDecls with
  | [] => some []
  | funcDecl :: rest =>
    match runFuncDecl funcDecl with
    | none => none
    | some reports => (run rest).map (fun more => reports ++ more)

/-! ## Vocabulary of the statements about the analyzer -/

/-- The children of a node, in the order `ast.Walk` visits them. -/
def Node.children (n : Node) : List Node :=
  match n with
  | .expr (.ident _) => []
  | .expr (.selectorExpr x sel) => [.expr x, .expr (.ident sel)]
  | .expr (.starExpr x) => [.expr x]
  | .expr (.callExpr fn args) => .expr fn :: args.map Node.expr
  | .expr (.other _ children) => children
  | .stmt (.exprStmt _ x) => [.expr x]
  | .stmt (.returnStmt results) => results.map Node.expr
  | .stmt .emptyStmt => []
  | .stmt (.declStmt decl) => [decl]
  | .stmt (.blockStmt list) => list.map Node.stmt
  | .stmt (.other _ children) => children
  | .other _ children => children

mutual
/-- The statements inside an expression (those of its function literals), in
the order of the walk. -/
def Expr.subStmts : Expr → List Stmt
  | .ident _ => []
  | .selectorExpr x _ => x.subStmts
  | .starExpr x => x.subStmts
  | .callExpr fn args => fn.subStmts ++ subStmtsExprs args
  | .other _ children => subStmtsNodes children
/-- The statement itself followed by the statements nested in it at any depth,
in the order of the walk. -/
def Stmt.subStmts : Stmt → List Stmt
  | .exprStmt pos x => .exprStmt pos x :: x.subStmts
  | .returnStmt results => .returnStmt results :: subStmtsExprs results
  | .emptyStmt => [.emptyStmt]
  | .declStmt decl => .declStmt decl :: decl.subStmts
  | .blockStmt list => .blockStmt list :: subStmtsStmts list
  | .other kind children => .other kind children :: subStmtsNodes children
/-- The statements of the tree under a node, in the order of the walk. -/
def Node.subStmts : Node → List Stmt
  | .expr e => e.subStmts
  | .stmt s => s.subStmts
  | .other _ children => subStmtsNodes children
/-- The statements in a list of expressions. -/
def subStmtsExprs : List Expr → List Stmt
  | [] => []
  | e :: es => e.subStmts ++ subStmtsExprs es
/-- The statements in a list of statements. -/
def subStmtsStmts : List Stmt → List Stmt
  | [] => []
  | s :: ss => s.subStmts ++ subStmtsStmts ss
/-- The statements in a list of nodes. -/
def subStmtsNodes : List Node → List Stmt
  | [] => []
  | n :: ns => n.subStmts ++ subStmtsNodes ns
end

/-- The position of an expression statement. -/
def Stmt.exprStmtPos (stmt : Stmt) : Option Nat :=
  match stmt with
  | .exprStmt pos _ => some pos
  | _ => none

/-- The positions of all expression statements of a function body, in the
order of the walk. -/
def exprStmtPositions (body : List Stmt) : List Nat :=
  (Stmt.blockStmt body).subStmts.filterMap Stmt.exprStmtPos

/-- The syntax tree of a body is a tree of distinct nodes: no two expression
statements start at the same position. -/
def DistinctStmts (body : List Stmt) : Prop :=
  (exprStmtPositions body).Nodup

instance (body : List Stmt) : Decidable (DistinctStmts body) := by
  unfold DistinctStmts; infer_instance

/-- The nearest sibling after a statement that is neither an empty statement
nor a declaration statement, given the statements `rest` that follow it. -/
def nextNonEmpty (rest : List Stmt) : Option Stmt :=
  rest.find? (fun stmt => !isEmptyStatement stmt)

/-- The statement a node is, if it is one. -/
def Node.selfStmt (n : Node) : List Stmt :=
  match n with
  | .stmt s => [s]
  | _ => []

/-- The walk over the children of a node, in order. -/
def inspectChildren {σ : Type} (f : Node → σ → σ × Bool) (cs : List Node) (s : σ) : σ :=
  cs.foldl (fun acc c => c.inspect f acc) s

/-- The reports that the callback of `run` adds at a node. -/
def visitReports (body : List Stmt) (writerName : String) (lastStmt : Stmt) (n : Node) :
    List Diagnostic :=
  (runVisit body writerName lastStmt n []).1

/-- The positions of the expression statements under a node, in the order of
the walk. -/
def positionsUnder (n : Node) : List Nat :=
  n.subStmts.filterMap Stmt.exprStmtPos

/-- The indirect write idioms, as (package identifier, function name): a call
of one of them with the writer as first argument writes to the writer. -/
def indirectWrites : List (String × String) :=
  [("json", "NewEncoder"), ("fmt", "Fprintf"), ("fmt", "Fprint"), ("fmt", "Fprintln"),
   ("io", "Copy"), ("render", "Render")]

/-! ## Example declarations

The handlers of `cmd/testdata/basic.go` that the theorems are applied to, and
further declarations.  The position of a statement is its line. -/

/-- The parameter list `(w http.ResponseWriter, r *http.Request)`. -/
def handlerParams : Option (List Field) :=
  some [⟨["w"], .selectorExpr (.ident "http") "ResponseWriter"⟩,
    ⟨["r"], .starExpr (.selectorExpr (.ident "http") "Request")⟩]

/-- The call `w.Write([]byte(text))`. -/
def writeCall (text : String) : Expr :=
  .callExpr (.selectorExpr (.ident "w") "Write")
    [.callExpr (.other "ArrayType" [.expr (.ident "byte")]) [basicLit text]]

/-- The call `name()`. -/
def plainCall (name : String) : Expr := .callExpr (.ident name) []

/-- The condition `r.Method == method`. -/
def methodIs (method : String) : Expr :=
  .other "BinaryExpr" [.expr (.selectorExpr (.ident "r") "Method"), .expr (basicLit method)]

/-- The body of `handler1`: `w.Write([]byte("hello")); return`. -/
def handler1Body : List Stmt := [.exprStmt 10 (writeCall "hello"), .returnStmt []]

/-- The declaration `handler1`. -/
def handler1 : FuncDecl := ⟨handlerParams, some handler1Body⟩

/-- The body of `handler3`: `w.Write([]byte("hello")); someOtherOperation()`. -/
def handler3Body : List Stmt :=
  [.exprStmt 21 (writeCall "hello"), .exprStmt 22 (plainCall "someOtherOperation")]

/-- The declaration `handler3`. -/
def handler3 : FuncDecl := ⟨handlerParams, some handler3Body⟩

/-- The body of `handler6`:
`if r.Method == "POST" { w.Write(..); return }; if r.Method == "DELETE" { w.Write(..) }; w.Write(..)`. -/
def handler6Body : List Stmt :=
  [ifStmt none (methodIs "POST") [.exprStmt 43 (writeCall "post"), .returnStmt []] none,
   ifStmt none (methodIs "DELETE") [.exprStmt 48 (writeCall "delete")] none,
   .exprStmt 51 (writeCall "get")]

/-- The declaration `handler6`. -/
def handler6 : FuncDecl := ⟨handlerParams, some handler6Body⟩

/-- The body of `handler7`:
`if r.Method == "POST" { w.Write(..); return }; w.Write(..)` (comments are not statements). -/
def handler7Body : List Stmt :=
  [ifStmt none (methodIs "POST") [.exprStmt 57 (writeCall "post"), .returnStmt []] none,
   .exprStmt 64 (writeCall "get")]

/-- The declaration `handler7`. -/
def handler7 : FuncDecl := ⟨handlerParams, some handler7Body⟩

/-- The function type `func(w http.ResponseWriter, r *http.Request)`. -/
def handlerFuncType : Node :=
  .expr (.other "FuncType" [.other "FieldList"
    [.other "Field" [.expr (.ident "w"), .expr (.selectorExpr (.ident "http") "ResponseWriter")],
     .other "Field" [.expr (.ident "r"),
       .expr (.starExpr (.selectorExpr (.ident "http") "Request"))]]])

/-- The declaration
`func notHandler(w other.ResponseWriter, r *http.Request) { w.Write(..); someOtherOperation();
  go func(w http.ResponseWriter, r *http.Request) { w.Write(..); someOtherOperation() }(w, r) }`. -/
def notHandler : FuncDecl :=
  ⟨some [⟨["w"], .selectorExpr (.ident "other") "ResponseWriter"⟩,
     ⟨["r"], .starExpr (.selectorExpr (.ident "http") "Request")⟩],
   some [.exprStmt 21 (writeCall "hello"), .exprStmt 22 (plainCall "someOtherOperation"),
     .other "GoStmt" [.expr (.callExpr
       (funcLit handlerFuncType
         [.exprStmt 24 (writeCall "hello"), .exprStmt 25 (plainCall "someOtherOperation")])
       [.ident "w", .ident "r"])]]⟩

/-- The statement `json.NewEncoder(w).Encode(v)`. -/
def encodeCall (w : String) (v : Expr) : Expr :=
  .callExpr
    (.selectorExpr (.callExpr (.selectorExpr (.ident "json") "NewEncoder") [.ident w]) "Encode")
    [v]

/-- The declaration
`func h(w http.ResponseWriter, r *http.Request) { json.NewEncoder(w).Encode(v); other() }`. -/
def encoderHandler : FuncDecl :=
  ⟨handlerParams, some [.exprStmt 1 (encodeCall "w" (.ident "v")), .exprStmt 2 (plainCall "other")]⟩

/-- The declaration
`func h(http.ResponseWriter, *http.Request) { someOtherOperation() }`, whose
parameters have no names. -/
def unnamedHandler : FuncDecl :=
  ⟨some [⟨[], .selectorExpr (.ident "http") "ResponseWriter"⟩,
     ⟨[], .starExpr (.selectorExpr (.ident "http") "Request")⟩],
   some [.exprStmt 1 (plainCall "someOtherOperation")]⟩

/-- The body
`switch r.Method { case "DELETE": w.Write(..); other() }; w.Write(..)`. -/
def switchHandlerBody : List Stmt :=
  [switchStmt none (some (.selectorExpr (.ident "r") "Method"))
     [caseClause [basicLit "DELETE"]
       [.exprStmt 2 (writeCall "delete"), .exprStmt 3 (plainCall "other")]],
   .exprStmt 5 (writeCall "get")]

/-- A handler with the body `switchHandlerBody`. -/
def switchHandler : FuncDecl := ⟨handlerParams, some switchHandlerBody⟩

/-! ## Further vocabulary and examples -/

/-- An assignment or short variable declaration: `*ast.AssignStmt`, children
`Lhs` then `Rhs`. -/
def assignStmt (lhs rhs : List Expr) : Stmt :=
  .other "AssignStmt" (lhs.map Node.expr ++ rhs.map Node.expr)

/-- A defer statement: `*ast.DeferStmt`, child `Call`. -/
def deferStmt (call : Expr) : Stmt := .other "DeferStmt" [.expr call]

/-- A go statement: `*ast.GoStmt`, child `Call`. -/
def goStmt (call : Expr) : Stmt := .other "GoStmt" [.expr call]

/-- The number of parameters that a parameter list declares, as
`(*ast.FieldList).NumFields` counts them: each name of an entry counts, and an
entry without names counts once; a nil list declares none. -/
def numParams (funcDecl : FuncDecl) : Nat :=
  match funcDecl.params with
  | none => 0
  | some list => (list.map (fun field => if field.names.length = 0 then 1 else field.names.length)).sum

/-- A callback for `ast.Inspect` that records every statement it visits and
always descends. -/
def collectVisit (n : Node) (visited : List Stmt) : List Stmt × Bool :=
  (visited ++ n.selfStmt, true)

/-- The statements of the body of a declaration in the order in which
`ast.Inspect(funcDecl.Body, ...)` visits them; none without a body. -/
def walkOrder (funcDecl : FuncDecl) : List Stmt :=
  match funcDecl.body with
  | none => []
  | some body => (Node.stmt (.blockStmt body)).inspect collectVisit []

/-- The block `{ w.Write([]byte("x")); other() }` of the function literal of
`declOnlyHandler`. -/
def declOnlyBlock : List Stmt :=
  [.exprStmt 2 (writeCall "x"), .exprStmt 3 (plainCall "other")]

/-- The body `var _ = func() { w.Write([]byte("x")); other() }`, a single
declaration statement. -/
def declOnlyBody : List Stmt := [varDecl ["_"] [funcLit funcType declOnlyBlock]]

/-- A handler with the body `declOnlyBody`. -/
def declOnlyHandler : FuncDecl := ⟨handlerParams, some declOnlyBody⟩

/-- The declaration
`func h(w, w2 http.ResponseWriter, r *http.Request) { w.Write([]byte("x")); other() }`:
three parameters in two entries. -/
def groupedWriterHandler : FuncDecl :=
  ⟨some [⟨["w", "w2"], .selectorExpr (.ident "http") "ResponseWriter"⟩,
     ⟨["r"], .starExpr (.selectorExpr (.ident "http") "Request")⟩],
   some [.exprStmt 2 (writeCall "x"), .exprStmt 3 (plainCall "other")]⟩

/-- The declaration
`func h(w http.ResponseWriter, r, r2 *http.Request) { w.Write([]byte("x")); other() }`:
three parameters in two entries. -/
def groupedRequestHandler : FuncDecl :=
  ⟨some [⟨["w"], .selectorExpr (.ident "http") "ResponseWriter"⟩,
     ⟨["r", "r2"], .starExpr (.selectorExpr (.ident "http") "Request")⟩],
   some [.exprStmt 2 (writeCall "x"), .exprStmt 3 (plainCall "other")]⟩

/-- The body of `handler8`:
`if r.Method == "POST" { w.Write(..); return }; if r.Method == "DELETE" { w.Write(..) }; w.Write(..)`
(comments are not statements). -/
def handler8Body : List Stmt :=
  [ifStmt none (methodIs "POST") [.exprStmt 72 (writeCall "post"), .returnStmt []] none,
   ifStmt none (methodIs "DELETE") [.exprStmt 79 (writeCall "delete")] none,
   .exprStmt 84 (writeCall "get")]

/-- The declaration `handler8`. -/
def handler8 : FuncDecl := ⟨handlerParams, some handler8Body⟩

/-- The body `_, err := w.Write([]byte("x")); defer w.Write([]byte("y")); go w.Write([]byte("z")); other()`. -/
def assignBody : List Stmt :=
  [assignStmt [.ident "_", .ident "err"] [writeCall "x"],
   deferStmt (writeCall "y"),
   goStmt (writeCall "z"),
   .exprStmt 5 (plainCall "other")]

/-- A handler with the body `assignBody`. -/
def assignHandler : FuncDecl := ⟨handlerParams, some assignBody⟩

/-- The body
`switch r.Method { case "DELETE": { w.Write(..); other() } }; w.Write(..)`:
the body of `switchHandlerBody` with the statements of the clause put in braces. -/
def bracedSwitchBody : List Stmt :=
  [switchStmt none (some (.selectorExpr (.ident "r") "Method"))
     [caseClause [basicLit "DELETE"]
       [.blockStmt [.exprStmt 2 (writeCall "delete"), .exprStmt 3 (plainCall "other")]]],
   .exprStmt 5 (writeCall "get")]

/-- A handler with the body `bracedSwitchBody`. -/
def bracedSwitchHandler : FuncDecl := ⟨handlerParams, some bracedSwitchBody⟩

/-! ## The walk in terms of the children of a node -/

theorem sizeOf_lt_of_mem_children (n c : Node) (h : c ∈ n.children) : sizeOf c < sizeOf n := by
  match n with
  | .expr (.ident _) => simp [Node.children] at h
  | .expr (.selectorExpr x sel) =>
    simp [Node.children] at h
    rcases h with rfl | rfl
    · simp; omega
    · have : 0 < sizeOf x := by cases x <;> simp
      simp; omega
  | .expr (.starExpr x) =>
    simp [Node.children] at h
    subst h; simp
  | .expr (.callExpr fn args) =>
    simp [Node.children] at h
    rcases h with rfl | ⟨a, ha, rfl⟩
    · simp; omega
    · have := List.sizeOf_lt_of_mem ha
      simp; omega
  | .expr (.other _ children) =>
    simp [Node.children] at h
    have := List.sizeOf_lt_of_mem h
    simp; omega
  | .stmt (.exprStmt _ x) =>
    simp [Node.children] at h
    subst h; simp
  | .stmt (.returnStmt results) =>
    simp [Node.children] at h
    rcases h with ⟨a, ha, rfl⟩
    have := List.sizeOf_lt_of_mem ha
    simp; omega
  | .stmt .emptyStmt => simp [Node.children] at h
  | .stmt (.declStmt decl) =>
    simp [Node.children] at h
    subst h; simp; omega
  | .stmt (.blockStmt list) =>
    simp [Node.children] at h
    rcases h with ⟨a, ha, rfl⟩
    have := List.sizeOf_lt_of_mem ha
    simp; omega
  | .stmt (.other _ children) =>
    simp [Node.children] at h
    have := List.sizeOf_lt_of_mem h
    simp; omega
  | .other _ children =>
    simp [Node.children] at h
    have := List.sizeOf_lt_of_mem h
    simp; omega

/-- Induction over syntax trees: a property that holds of a node whenever it
holds of its children holds of every node. -/
theorem Node.induction_on_children {P : Node → Prop}
    (step : ∀ n : Node, (∀ c ∈ n.children, P c) → P n) (n : Node) : P n := by
  have key : ∀ k : Nat, ∀ m : Node, sizeOf m < k → P m := by
    intro k
    induction k with
    | zero => intro m hm; omega
    | succ k ih =>
      intro m hm
      apply step
      intro c hc
      have := sizeOf_lt_of_mem_children m c hc
      exact ih c (by omega)
  exact key (sizeOf n + 1) n (by omega)

theorem subStmtsNodes_eq (ns : List Node) : subStmtsNodes ns = ns.flatMap Node.subStmts := by
  induction ns with
  | nil => simp [subStmtsNodes]
  | cons n ns ih => simp [subStmtsNodes, ih]

theorem subStmtsExprs_eq (es : List Expr) :
    subStmtsExprs es = (es.map Node.expr).flatMap Node.subStmts := by
  induction es with
  | nil => simp [subStmtsExprs]
  | cons e es ih => simp [subStmtsExprs, ih, Node.subStmts]

theorem subStmtsStmts_eq (ss : List Stmt) :
    subStmtsStmts ss = (ss.map Node.stmt).flatMap Node.subStmts := by
  induction ss with
  | nil => simp [subStmtsStmts]
  | cons e es ih => simp [subStmtsStmts, ih, Node.subStmts]

/-- The statements under a node: the node itself when it is a statement, then
the statements under each child. -/
theorem Node.subStmts_eq (n : Node) :
    n.subStmts = n.selfStmt ++ n.children.flatMap Node.subStmts := by
  match n with
  | .expr (.ident _) => simp [Node.subStmts, Expr.subStmts, Node.selfStmt, Node.children]
  | .expr (.selectorExpr x sel) =>
    simp [Node.subStmts, Expr.subStmts, Node.selfStmt, Node.children]
  | .expr (.starExpr x) => simp [Node.subStmts, Expr.subStmts, Node.selfStmt, Node.children]
  | .expr (.callExpr fn args) =>
    simp [Node.subStmts, Expr.subStmts, Node.selfStmt, Node.children, subStmtsExprs_eq]
  | .expr (.other _ children) =>
    simp [Node.subStmts, Expr.subStmts, Node.selfStmt, Node.children, subStmtsNodes_eq]
  | .stmt (.exprStmt _ x) => simp [Node.subStmts, Stmt.subStmts, Node.selfStmt, Node.children]
  | .stmt (.returnStmt results) =>
    simp [Node.subStmts, Stmt.subStmts, Node.selfStmt, Node.children, subStmtsExprs_eq]
  | .stmt .emptyStmt => simp [Node.subStmts, Stmt.subStmts, Node.selfStmt, Node.children]
  | .stmt (.declStmt decl) => simp [Node.subStmts, Stmt.subStmts, Node.selfStmt, Node.children]
  | .stmt (.blockStmt list) =>
    simp [Node.subStmts, Stmt.subStmts, Node.selfStmt, Node.children, subStmtsStmts_eq]
  | .stmt (.other _ children) =>
    simp [Node.subStmts, Stmt.subStmts, Node.selfStmt, Node.children, subStmtsNodes_eq]
  | .other _ children =>
    simp [Node.subStmts, Node.selfStmt, Node.children, subStmtsNodes_eq]

theorem inspectNodes_eq {σ : Type} (f : Node → σ → σ × Bool) (ns : List Node) (s : σ) :
    inspectNodes f ns s = inspectChildren f ns s := by
  induction ns generalizing s with
  | nil => simp [inspectNodes, inspectChildren]
  | cons n ns ih => simp [inspectNodes, ih, inspectChildren]

theorem inspectExprs_eq {σ : Type} (f : Node → σ → σ × Bool) (es : List Expr) (s : σ) :
    inspectExprs f es s = inspectChildren f (es.map Node.expr) s := by
  induction es generalizing s with
  | nil => simp [inspectExprs, inspectChildren]
  | cons e es ih => simp [inspectExprs, ih, inspectChildren, Node.inspect]

theorem inspectStmts_eq {σ : Type} (f : Node → σ → σ × Bool) (ss : List Stmt) (s : σ) :
    inspectStmts f ss s = inspectChildren f (ss.map Node.stmt) s := by
  induction ss generalizing s with
  | nil => simp [inspectStmts, inspectChildren]
  | cons e es ih => simp [inspectStmts, ih, inspectChildren, Node.inspect]

/-- The walk from a node: the callback on the node, then, if it asks to
descend, the walk over the children. -/
theorem Node.inspect_eq {σ : Type} (f : Node → σ → σ × Bool) (n : Node) (s : σ) :
    n.inspect f s = if (f n s).2 then inspectChildren f n.children (f n s).1 else (f n s).1 := by
  match n with
  | .expr (.ident _) => simp [Node.inspect, Expr.inspect, Node.children, inspectChildren]
  | .expr (.selectorExpr x sel) =>
    simp [Node.inspect, Expr.inspect, Node.children, inspectChildren]
  | .expr (.starExpr x) => simp [Node.inspect, Expr.inspect, Node.children, inspectChildren]
  | .expr (.callExpr fn args) =>
    simp [Node.inspect, Expr.inspect, Node.children, inspectExprs_eq, inspectChildren]
  | .expr (.other _ children) =>
    simp [Node.inspect, Expr.inspect, Node.children, inspectNodes_eq]
  | .stmt (.exprStmt _ x) => simp [Node.inspect, Stmt.inspect, Node.children, inspectChildren]
  | .stmt (.returnStmt results) =>
    simp [Node.inspect, Stmt.inspect, Node.children, inspectExprs_eq]
  | .stmt .emptyStmt => simp [Node.inspect, Stmt.inspect, Node.children, inspectChildren]
  | .stmt (.declStmt decl) => simp [Node.inspect, Stmt.inspect, Node.children, inspectChildren]
  | .stmt (.blockStmt list) =>
    simp [Node.inspect, Stmt.inspect, Node.children, inspectStmts_eq]
  | .stmt (.other _ children) =>
    simp [Node.inspect, Stmt.inspect, Node.children, inspectNodes_eq]
  | .other _ children =>
    simp [Node.inspect, Node.children, inspectNodes_eq]

/-! ## The reports of `run` as a list over the statements of the body -/

theorem runVisit_eq (body : List Stmt) (w : String) (lastStmt : Stmt) (n : Node)
    (acc : List Diagnostic) :
    runVisit body w lastStmt n acc = (acc ++ visitReports body w lastStmt n, true) := by
  unfold visitReports runVisit
  split
  · split
    · simp
    · split
      · simp
      · split
        · simp
        · split
          · simp
          · split <;> simp
  · simp

theorem visitReports_eq_selfStmt (body : List Stmt) (w : String) (lastStmt : Stmt) (n : Node) :
    visitReports body w lastStmt n
      = n.selfStmt.flatMap (fun s => visitReports body w lastStmt (.stmt s)) := by
  cases n with
  | stmt s => simp [Node.selfStmt]
  | expr e => simp [Node.selfStmt, visitReports, runVisit]
  | other k cs => simp [Node.selfStmt, visitReports, runVisit]

theorem inspect_runVisit (body : List Stmt) (w : String) (lastStmt : Stmt) (n : Node) :
    ∀ acc : List Diagnostic,
      n.inspect (runVisit body w lastStmt) acc
        = acc ++ n.subStmts.flatMap (fun s => visitReports body w lastStmt (.stmt s)) := by
  induction n using Node.induction_on_children with
  | step n ih =>
    intro acc
    have hchildren : ∀ cs : List Node, (∀ c ∈ cs, c ∈ n.children) → ∀ a : List Diagnostic,
        inspectChildren (runVisit body w lastStmt) cs a
          = a ++ (cs.flatMap Node.subStmts).flatMap
              (fun s => visitReports body w lastStmt (.stmt s)) := by
      intro cs
      induction cs with
      | nil => intro _ a; simp [inspectChildren]
      | cons c cs ihcs =>
        intro hsub a
        have hc := ih c (hsub c (List.mem_cons_self _ _))
        have hrest := ihcs (fun c' hc' => hsub c' (List.mem_cons_of_mem _ hc'))
        simp only [inspectChildren, List.foldl_cons] at hrest ⊢
        rw [hc, hrest]
        simp [List.flatMap_append]
    rw [Node.inspect_eq, runVisit_eq]
    simp only [if_true]
    rw [hchildren n.children (fun _ h => h), Node.subStmts_eq n, List.flatMap_append,
      ← visitReports_eq_selfStmt, List.append_assoc]

/-- The reports of a handler with a last statement: the reports made at each
statement of the body, in the order of the walk. -/
theorem runFuncDecl_eq (funcDecl : FuncDecl) (body : List Stmt) (w : String) (lastStmt : Stmt)
    (hh : isHTTPHandler funcDecl = true) (hb : funcDecl.body = some body)
    (hw : writerName funcDecl = some w) (hl : getLastNonEmptyStatement body = some lastStmt) :
    runFuncDecl funcDecl
      = some ((Stmt.blockStmt body).subStmts.flatMap
          (fun s => visitReports body w lastStmt (.stmt s))) := by
  unfold runFuncDecl
  simp [hh, hb, hw, hl, inspect_runVisit, Node.subStmts]

/-- A handler without a last statement has no report. -/
theorem runFuncDecl_eq_nil (funcDecl : FuncDecl) (body : List Stmt) (w : String)
    (hb : funcDecl.body = some body) (hw : writerName funcDecl = some w)
    (hl : getLastNonEmptyStatement body = none) :
    runFuncDecl funcDecl = some [] := by
  unfold runFuncDecl
  simp [hb, hw, hl]

/-! ## Statements under a node -/

theorem sublist_flatMap_of_mem {α β : Type} (f : α → List β) (l : List α) (a : α) (h : a ∈ l) :
    (f a).Sublist (l.flatMap f) := by
  obtain ⟨s, t, rfl⟩ := List.append_of_mem h
  simp only [List.flatMap_append, List.flatMap_cons]
  exact (List.sublist_append_left _ _).trans (List.sublist_append_right _ _)

theorem subStmts_child_sublist (n c : Node) (hc : c ∈ n.children) :
    c.subStmts.Sublist n.subStmts := by
  rw [Node.subStmts_eq n]
  exact (sublist_flatMap_of_mem Node.subStmts _ c hc).trans (List.sublist_append_right _ _)

theorem mem_selfStmt {n : Node} {s : Stmt} (h : s ∈ n.selfStmt) : n = .stmt s := by
  cases n <;> simp [Node.selfStmt] at h
  subst h; rfl

theorem self_mem_subStmts (s : Stmt) : s ∈ (Node.stmt s).subStmts := by
  rw [Node.subStmts_eq]; simp [Node.selfStmt]

/-- A statement under a node has all its own statements under that node, in
the same order. -/
theorem subStmts_sublist (n : Node) :
    ∀ s ∈ n.subStmts, (Node.stmt s).subStmts.Sublist n.subStmts := by
  induction n using Node.induction_on_children with
  | step n ih =>
    intro s hs
    rw [Node.subStmts_eq n] at hs
    rcases List.mem_append.1 hs with h | h
    · rw [mem_selfStmt h]
    · obtain ⟨c, hc, hsc⟩ := List.mem_flatMap.1 h
      exact (ih c hc s hsc).trans (subStmts_child_sublist n c hc)

theorem subStmts_trans {n : Node} {s t : Stmt} (hs : s ∈ n.subStmts)
    (ht : t ∈ (Node.stmt s).subStmts) : t ∈ n.subStmts :=
  (subStmts_sublist n s hs).subset ht

theorem mem_subStmts_of_mem_block {l : List Stmt} {t : Stmt} (h : t ∈ l) :
    t ∈ (Node.stmt (.blockStmt l)).subStmts := by
  rw [Node.subStmts_eq]
  apply List.mem_append_right
  exact List.mem_flatMap.2 ⟨.stmt t, by simp [Node.children, h], self_mem_subStmts t⟩

theorem mem_subStmts_of_mem_other {k : String} {cs : List Node} {t : Stmt}
    (h : Node.stmt t ∈ cs) : t ∈ (Node.stmt (.other k cs)).subStmts := by
  rw [Node.subStmts_eq]
  apply List.mem_append_right
  exact List.mem_flatMap.2 ⟨.stmt t, by simp [Node.children, h], self_mem_subStmts t⟩

theorem mem_positionsUnder {n : Node} {p : Nat} :
    p ∈ positionsUnder n ↔ ∃ x, Stmt.exprStmt p x ∈ n.subStmts := by
  unfold positionsUnder
  rw [List.mem_filterMap]
  constructor
  · rintro ⟨s, hs, hp⟩
    cases s <;> simp [Stmt.exprStmtPos] at hp
    subst hp
    exact ⟨_, hs⟩
  · rintro ⟨x, hx⟩
    exact ⟨_, hx, rfl⟩

theorem positionsUnder_sublist {n : Node} {s : Stmt} (hs : s ∈ n.subStmts) :
    (positionsUnder (.stmt s)).Sublist (positionsUnder n) :=
  (subStmts_sublist n s hs).filterMap _

theorem positionsUnder_mono {n : Node} {s : Stmt} {p : Nat} (hs : s ∈ n.subStmts)
    (hp : p ∈ positionsUnder (.stmt s)) : p ∈ positionsUnder n :=
  (positionsUnder_sublist hs).subset hp

theorem positionsUnder_eq (n : Node) :
    positionsUnder n
      = n.selfStmt.filterMap Stmt.exprStmtPos ++ n.children.flatMap positionsUnder := by
  unfold positionsUnder
  rw [Node.subStmts_eq n, List.filterMap_append, List.filterMap_flatMap]

theorem mem_positions_flatMap {cs : List Node} {s : Stmt} {p : Nat}
    (hs : s ∈ cs.flatMap Node.subStmts) (hp : p ∈ positionsUnder (.stmt s)) :
    p ∈ cs.flatMap positionsUnder := by
  obtain ⟨c, hc, hsc⟩ := List.mem_flatMap.1 hs
  exact List.mem_flatMap.2 ⟨c, hc, positionsUnder_mono hsc hp⟩

/-- Among the statements under a list of sibling nodes with distinct positions,
the only statement that holds the position of a sibling expression statement
is that sibling. -/
theorem eq_of_sibling_position (p : Nat) (x : Expr) (s : Stmt) (cs : List Node)
    (hnd : (cs.flatMap positionsUnder).Nodup)
    (hW : Node.stmt (.exprStmt p x) ∈ cs)
    (hs : s ∈ cs.flatMap Node.subStmts)
    (hp : p ∈ positionsUnder (.stmt s)) : s = .exprStmt p x := by
  induction cs with
  | nil => simp at hW
  | cons c cs ih =>
    rw [List.flatMap_cons] at hnd hs
    obtain ⟨nd1, nd2, hdis⟩ := List.nodup_append.1 hnd
    have hWp : p ∈ positionsUnder (.stmt (.exprStmt p x)) :=
      mem_positionsUnder.2 ⟨x, self_mem_subStmts _⟩
    rcases List.mem_cons.1 hW with hWc | hWc
    · subst hWc
      rcases List.mem_append.1 hs with h | h
      · rw [Node.subStmts_eq] at h
        simp only [Node.selfStmt, Node.children, List.singleton_append, List.flatMap_cons,
          List.flatMap_nil, List.append_nil, List.mem_cons] at h
        rcases h with h | h
        · exact h
        · exfalso
          have hpx : p ∈ positionsUnder (.expr x) := positionsUnder_mono h hp
          rw [positionsUnder_eq] at nd1
          simp only [Node.selfStmt, Node.children, List.filterMap_cons, Stmt.exprStmtPos,
            List.filterMap_nil, List.singleton_append, List.flatMap_cons, List.flatMap_nil,
            List.append_nil, List.nodup_cons] at nd1
          exact nd1.1 hpx
      · exact absurd (mem_positions_flatMap h hp) (fun h' => hdis hWp h')
    · have hW' : p ∈ cs.flatMap positionsUnder :=
        List.mem_flatMap.2 ⟨_, hWc, hWp⟩
      rcases List.mem_append.1 hs with h | h
      · exact absurd hW' (fun h' => hdis (positionsUnder_mono h hp) h')
      · exact ih nd2 hWc h

/-! ## `findParentBlock` -/

theorem any_isExprStmtAt {l : List Stmt} {p : Nat} :
    l.any (fun stmt => stmt.isExprStmtAt p) = true ↔ ∃ x, Stmt.exprStmt p x ∈ l := by
  rw [List.any_eq_true]
  constructor
  · rintro ⟨s, hs, hp⟩
    cases s <;> simp [Stmt.isExprStmtAt] at hp
    subst hp
    exact ⟨_, hs⟩
  · rintro ⟨x, hx⟩
    exact ⟨_, hx, by simp [Stmt.isExprStmtAt]⟩

theorem findParentBlockVisit_of_not_owned (p : Nat) (n : Node) (s : Option (List Stmt))
    (h : ∀ l, n = .stmt (.blockStmt l) → l.any (fun stmt => stmt.isExprStmtAt p) = false) :
    findParentBlockVisit p n s = (s, true) := by
  unfold findParentBlockVisit
  split
  · rename_i l
    simp [h l rfl]
  · rfl

/-- When no block under a node holds the target in its list, the walk of
`findParentBlock` leaves the result as it was. -/
theorem inspect_findParentBlockVisit_of_not_owned (p : Nat) (n : Node) :
    (∀ l, Stmt.blockStmt l ∈ n.subStmts → l.any (fun stmt => stmt.isExprStmtAt p) = false) →
      ∀ s, n.inspect (findParentBlockVisit p) s = s := by
  induction n using Node.induction_on_children with
  | step n ih =>
    intro h s
    have hchildren : ∀ cs : List Node, (∀ c ∈ cs, c ∈ n.children) → ∀ a,
        inspectChildren (findParentBlockVisit p) cs a = a := by
      intro cs
      induction cs with
      | nil => intro _ a; simp [inspectChildren]
      | cons c cs ihcs =>
        intro hsub a
        have hc := ih c (hsub c (List.mem_cons_self _ _))
          (fun l hl => h l ((subStmts_child_sublist n c (hsub c (List.mem_cons_self _ _))).subset hl))
        have hrest := ihcs (fun c' hc' => hsub c' (List.mem_cons_of_mem _ hc'))
        simp only [inspectChildren, List.foldl_cons] at hrest ⊢
        rw [hc, hrest]
    rw [Node.inspect_eq, findParentBlockVisit_of_not_owned p n s]
    · simp only [if_true]
      exact hchildren n.children (fun _ hc => hc) s
    · intro l hl
      exact h l (by rw [hl]; exact self_mem_subStmts _)

theorem inspectChildren_findParentBlockVisit_of_not_owned (p : Nat) (cs : List Node)
    (h : p ∉ cs.flatMap positionsUnder) (s : Option (List Stmt)) :
    inspectChildren (findParentBlockVisit p) cs s = s := by
  induction cs generalizing s with
  | nil => simp [inspectChildren]
  | cons c cs ih =>
    simp only [List.flatMap_cons, List.mem_append, not_or] at h
    simp only [inspectChildren, List.foldl_cons] at ih ⊢
    rw [inspect_findParentBlockVisit_of_not_owned p c, ih h.2]
    intro l hl
    by_contra hne
    simp only [Bool.not_eq_false] at hne
    obtain ⟨x, hx⟩ := any_isExprStmtAt.1 hne
    exact h.1 (mem_positionsUnder.2 ⟨x, subStmts_trans hl (mem_subStmts_of_mem_block hx)⟩)

/-- In a tree with distinct positions, the walk of `findParentBlock` ends with
the block whose list holds the target, whatever the result was before. -/
theorem inspect_findParentBlockVisit_of_owned (p : Nat) (l : List Stmt)
    (hown : l.any (fun stmt => stmt.isExprStmtAt p) = true) (n : Node) :
    (positionsUnder n).Nodup → Stmt.blockStmt l ∈ n.subStmts →
      ∀ s, n.inspect (findParentBlockVisit p) s = some l := by
  obtain ⟨y, hy⟩ := any_isExprStmtAt.1 hown
  have hpl : p ∈ positionsUnder (.stmt (.blockStmt l)) :=
    mem_positionsUnder.2 ⟨y, mem_subStmts_of_mem_block hy⟩
  induction n using Node.induction_on_children with
  | step n ih =>
    intro hnd hl s
    have hndc : (n.children.flatMap positionsUnder).Nodup := by
      rw [positionsUnder_eq] at hnd
      exact (List.nodup_append.1 hnd).2.1
    have hchildren : ∀ cs : List Node, (∀ c ∈ cs, c ∈ n.children) →
        (cs.flatMap positionsUnder).Nodup → Stmt.blockStmt l ∈ cs.flatMap Node.subStmts →
        ∀ a, inspectChildren (findParentBlockVisit p) cs a = some l := by
      intro cs
      induction cs with
      | nil => intro _ _ hmem; simp at hmem
      | cons c cs ihcs =>
        intro hsub hndcs hmem a
        rw [List.flatMap_cons] at hndcs hmem
        obtain ⟨nd1, nd2, hdis⟩ := List.nodup_append.1 hndcs
        simp only [inspectChildren, List.foldl_cons]
        rcases List.mem_append.1 hmem with h | h
        · rw [ih c (hsub c (List.mem_cons_self _ _)) nd1 h a]
          exact inspectChildren_findParentBlockVisit_of_not_owned p cs
            (fun h' => hdis (positionsUnder_mono h hpl) h') _
        · exact ihcs (fun c' hc' => hsub c' (List.mem_cons_of_mem _ hc')) nd2 h _
    rw [Node.inspect_eq]
    by_cases hcase : ∃ l', n = .stmt (.blockStmt l') ∧
        l'.any (fun stmt => stmt.isExprStmtAt p) = true
    · obtain ⟨l', rfl, hown'⟩ := hcase
      have hll : l' = l := by
        rw [Node.subStmts_eq] at hl
        simp only [Node.selfStmt, List.singleton_append, List.mem_cons] at hl
        rcases hl with h | h
        · injection h with h; exact h.symm
        · exfalso
          obtain ⟨x', hx'⟩ := any_isExprStmtAt.1 hown'
          have := eq_of_sibling_position p x' (.blockStmt l) _ hndc
            (by simp [Node.children]; exact hx') h hpl
          cases this
      subst hll
      have hv : findParentBlockVisit p (.stmt (.blockStmt l')) s = (some l', false) := by
        simp only [findParentBlockVisit, hown', if_true]
      rw [hv]
      simp
    · rw [findParentBlockVisit_of_not_owned p n s]
      · simp only [if_true]
        apply hchildren n.children (fun _ hc => hc) hndc
        rw [Node.subStmts_eq] at hl
        rcases List.mem_append.1 hl with h | h
        · exact absurd ⟨l, mem_selfStmt h, hown⟩ hcase
        · exact h
      · intro l' hl'
        by_contra hne
        exact hcase ⟨l', hl', by simpa using hne⟩

/-- In a body with distinct positions, `findParentBlock` returns the block
whose list holds the target. -/
theorem findParentBlock_eq (body : List Stmt) (p : Nat) (x : Expr) (l : List Stmt)
    (hnd : DistinctStmts body)
    (hl : Stmt.blockStmt l ∈ (Stmt.blockStmt body).subStmts)
    (hx : Stmt.exprStmt p x ∈ l) :
    findParentBlock (.stmt (.blockStmt body)) p = some l :=
  inspect_findParentBlockVisit_of_owned p l (any_isExprStmtAt.2 ⟨x, hx⟩)
    (.stmt (.blockStmt body)) hnd hl none

/-- When no block of the body holds the target in its list, `findParentBlock`
returns nil. -/
theorem findParentBlock_eq_none (body : List Stmt) (p : Nat)
    (h : ∀ l, Stmt.blockStmt l ∈ (Stmt.blockStmt body).subStmts → ∀ x, Stmt.exprStmt p x ∉ l) :
    findParentBlock (.stmt (.blockStmt body)) p = none := by
  apply inspect_findParentBlockVisit_of_not_owned
  intro l hl
  by_contra hne
  obtain ⟨x, hx⟩ := any_isExprStmtAt.1 (by simpa using hne)
  exact h l hl x hx

/-! ## The check of one write -/

theorem isExprStmtAt_iff {s : Stmt} {p : Nat} :
    s.isExprStmtAt p = true ↔ ∃ x, s = .exprStmt p x := by
  cases s <;> simp [Stmt.isExprStmtAt]

theorem findPos_append (pre post : List Stmt) (p : Nat) (x : Expr)
    (hpre : ∀ s ∈ pre, s.isExprStmtAt p = false) :
    findPos (pre ++ .exprStmt p x :: post) p = some pre.length := by
  induction pre with
  | nil => simp [findPos, Stmt.isExprStmtAt]
  | cons a pre ih =>
    have ha := hpre a (List.mem_cons_self _ _)
    have := ih (fun s hs => hpre s (List.mem_cons_of_mem _ hs))
    simp [findPos, ha, this]

theorem hasReturn_eq (rest : List Stmt) :
    hasReturn rest = match nextNonEmpty rest with
      | some next => next.isReturnStmt
      | none => false := by
  induction rest with
  | nil => simp [hasReturn, nextNonEmpty]
  | cons a rest ih =>
    unfold nextNonEmpty at ih ⊢
    by_cases ha : isEmptyStatement a = true
    · simp [hasReturn, ha, ih]
    · simp at ha
      simp [hasReturn, ha]

theorem positionsUnder_block (l : List Stmt) :
    positionsUnder (.stmt (.blockStmt l))
      = l.flatMap (fun s => positionsUnder (.stmt s)) := by
  rw [positionsUnder_eq]
  simp [Node.selfStmt, Node.children, Stmt.exprStmtPos, List.flatMap_map]

theorem self_mem_positionsUnder (p : Nat) (x : Expr) :
    p ∈ positionsUnder (.stmt (.exprStmt p x)) :=
  mem_positionsUnder.2 ⟨x, self_mem_subStmts _⟩

/-- In a block with distinct positions no sibling of an expression statement
is an expression statement at the same position. -/
theorem siblings_not_at (pre post : List Stmt) (p : Nat) (x : Expr)
    (hnd : (positionsUnder (.stmt (.blockStmt (pre ++ .exprStmt p x :: post)))).Nodup) :
    (∀ s ∈ pre, s.isExprStmtAt p = false) ∧ (∀ s ∈ post, s.isExprStmtAt p = false) := by
  rw [positionsUnder_block, List.flatMap_append, List.flatMap_cons] at hnd
  obtain ⟨_, nd2, hdis1⟩ := List.nodup_append.1 hnd
  obtain ⟨_, _, hdis2⟩ := List.nodup_append.1 nd2
  constructor
  · intro s hs
    by_contra hne
    obtain ⟨y, rfl⟩ := isExprStmtAt_iff.1 (by simpa using hne)
    exact hdis1 (List.mem_flatMap.2 ⟨_, hs, self_mem_positionsUnder p y⟩)
      (List.mem_append_left _ (self_mem_positionsUnder p x))
  · intro s hs
    by_contra hne
    obtain ⟨y, rfl⟩ := isExprStmtAt_iff.1 (by simpa using hne)
    exact hdis2 (self_mem_positionsUnder p x)
      (List.mem_flatMap.2 ⟨_, hs, self_mem_positionsUnder p y⟩)

theorem nodup_block_of_mem (body l : List Stmt) (hnd : DistinctStmts body)
    (hl : Stmt.blockStmt l ∈ (Stmt.blockStmt body).subStmts) :
    (positionsUnder (.stmt (.blockStmt l))).Nodup :=
  List.Nodup.sublist (positionsUnder_sublist (n := .stmt (.blockStmt body)) hl) hnd

/-- The report made at an expression statement at the position of a statement
`W` that sits in a block of a body with distinct positions: one report when the
expression is a write, the statement is not the last one of the function, and
the statements after `W` in its block do not start with a return. -/
theorem visitReports_in_block (body : List Stmt) (w : String) (lastStmt : Stmt)
    (hnd : DistinctStmts body) (block pre post : List Stmt) (p : Nat) (x y : Expr)
    (hblock : Stmt.blockStmt block ∈ (Stmt.blockStmt body).subStmts)
    (hW : block = pre ++ .exprStmt p x :: post) :
    visitReports body w lastStmt (.stmt (.exprStmt p y))
      = if isWriteToResponseWriter y w && !lastStmt.isExprStmtAt p && !hasReturn post
        then [⟨p, message⟩] else [] := by
  have hfind : findParentBlock (.stmt (.blockStmt body)) p = some block :=
    findParentBlock_eq body p x block hnd hblock (by rw [hW]; simp)
  have hpos : findPos block p = some pre.length := by
    rw [hW]
    exact findPos_append pre post p x
      (siblings_not_at pre post p x (hW ▸ nodup_block_of_mem body block hnd hblock)).1
  have hdrop : block.drop (pre.length + 1) = post := by
    rw [hW]; simp
  unfold visitReports runVisit
  simp only [hfind, hpos, hdrop]
  by_cases h1 : isWriteToResponseWriter y w = true <;>
    by_cases h2 : lastStmt.isExprStmtAt p = true <;>
    by_cases h3 : hasReturn post = true <;> simp [h1, h2, h3]

/-- A statement whose position is in the list of no block is not reported. -/
theorem visitReports_no_block (body : List Stmt) (w : String) (lastStmt : Stmt) (p : Nat)
    (y : Expr) (h : findParentBlock (.stmt (.blockStmt body)) p = none) :
    visitReports body w lastStmt (.stmt (.exprStmt p y)) = [] := by
  unfold visitReports runVisit
  by_cases h1 : isWriteToResponseWriter y w = true <;>
    by_cases h2 : lastStmt.isExprStmtAt p = true <;> simp [h1, h2, h]

/-- Every report is made at an expression statement that is a write, at the
position of that statement and with the fixed message. -/
theorem visitReports_sound (body : List Stmt) (w : String) (lastStmt : Stmt) (s : Stmt)
    (d : Diagnostic) (hd : d ∈ visitReports body w lastStmt (.stmt s)) :
    ∃ x, s = .exprStmt d.pos x ∧ isWriteToResponseWriter x w = true ∧ d.message = message := by
  unfold visitReports runVisit at hd
  split at hd
  · rename_i pos x heq
    injection heq with heq
    subst heq
    split at hd
    · simp at hd
    · rename_i hwr
      split at hd
      · simp at hd
      · split at hd
        · simp at hd
        · split at hd
          · simp at hd
          · split at hd
            · simp at hd
              subst hd
              exact ⟨x, rfl, by simpa using hwr, rfl⟩
            · simp at hd
  · simp at hd

/-- The reports at one position, among the reports made over a list of
statements with distinct positions, are those of the statement at that
position. -/
theorem filter_reports_at (g : Stmt → List Diagnostic)
    (hg : ∀ s d, d ∈ g s → s.exprStmtPos = some d.pos) (p : Nat) (x : Expr) (S : List Stmt)
    (hnd : (S.filterMap Stmt.exprStmtPos).Nodup) (hW : Stmt.exprStmt p x ∈ S) :
    (S.flatMap g).filter (fun d => d.pos == p) = g (.exprStmt p x) := by
  have hself : (g (.exprStmt p x)).filter (fun d => d.pos == p) = g (.exprStmt p x) := by
    apply List.filter_eq_self.2
    intro d hd
    have := hg _ d hd
    simp [Stmt.exprStmtPos] at this
    simp [this]
  have hnone : ∀ T : List Stmt, p ∉ T.filterMap Stmt.exprStmtPos →
      (T.flatMap g).filter (fun d => d.pos == p) = [] := by
    intro T hT
    apply List.filter_eq_nil_iff.2
    intro d hd hp
    obtain ⟨s, hs, hds⟩ := List.mem_flatMap.1 hd
    apply hT
    have hpos : d.pos = p := by simpa using hp
    exact List.mem_filterMap.2 ⟨s, hs, by rw [hg s d hds, hpos]⟩
  induction S with
  | nil => simp at hW
  | cons a S ih =>
    rw [List.flatMap_cons, List.filter_append]
    rcases List.mem_cons.1 hW with h | h
    · subst h
      simp only [List.filterMap_cons, Stmt.exprStmtPos, List.nodup_cons] at hnd
      rw [hself, hnone S hnd.1, List.append_nil]
    · have hpS : p ∈ S.filterMap Stmt.exprStmtPos := List.mem_filterMap.2 ⟨_, h, rfl⟩
      have ha : (g a).filter (fun d => d.pos == p) = [] := by
        apply List.filter_eq_nil_iff.2
        intro d hd hp
        have hpos : d.pos = p := by simpa using hp
        have hda := hg a d hd
        rw [hpos] at hda
        simp only [List.filterMap_cons, hda, List.nodup_cons] at hnd
        exact hnd.1 hpS
      have hndS : (S.filterMap Stmt.exprStmtPos).Nodup := by
        cases hpa : a.exprStmtPos with
        | none => simpa [List.filterMap_cons, hpa] using hnd
        | some q =>
          simp only [List.filterMap_cons, hpa, List.nodup_cons] at hnd
          exact hnd.2
      rw [ha, ih hndS h, List.nil_append]

/-! ## Facts used by several statements -/

theorem getLastNonEmptyStatement_mem {stmts : List Stmt} {s : Stmt}
    (h : getLastNonEmptyStatement stmts = some s) : s ∈ stmts := by
  unfold getLastNonEmptyStatement at h
  exact List.mem_reverse.1 (List.mem_of_find?_eq_some h)

/-- The last non-empty statement splits the list: only empty statements
follow it. -/
theorem getLastNonEmptyStatement_split {stmts : List Stmt} {s : Stmt}
    (h : getLastNonEmptyStatement stmts = some s) :
    ∃ pre post, stmts = pre ++ s :: post ∧ nextNonEmpty post = none := by
  unfold getLastNonEmptyStatement at h
  obtain ⟨_, as, bs, hrev, has⟩ := List.find?_eq_some.1 h
  refine ⟨bs.reverse, as.reverse, ?_, ?_⟩
  · have := congrArg List.reverse hrev
    simpa using this
  · unfold nextNonEmpty
    rw [List.find?_eq_none]
    intro a ha
    simpa using has a (List.mem_reverse.1 ha)

/-- When a non-empty statement follows a statement in a list, the last
non-empty statement of the list is one of the statements that follow. -/
theorem getLastNonEmptyStatement_mem_post {pre post : List Stmt} {a s next : Stmt}
    (h : getLastNonEmptyStatement (pre ++ a :: post) = some s)
    (hnext : nextNonEmpty post = some next) : s ∈ post := by
  unfold getLastNonEmptyStatement at h
  unfold nextNonEmpty at hnext
  rw [List.reverse_append, List.reverse_cons, List.append_assoc, List.find?_append] at h
  have hn : next ∈ post.reverse := List.mem_reverse.2 (List.mem_of_find?_eq_some hnext)
  have hp : (!isEmptyStatement next) = true := by
    have := (List.find?_eq_some.1 hnext).1
    simpa using this
  cases hfind : List.find? (fun stmt => !isEmptyStatement stmt) post.reverse with
  | none =>
    rw [List.find?_eq_none] at hfind
    exact absurd hp (hfind next hn)
  | some t =>
    rw [hfind] at h
    simp only [Option.or_some] at h
    injection h with h
    subst h
    exact List.mem_reverse.1 (List.mem_of_find?_eq_some hfind)

/-- In a body with distinct positions, the last statement of the function is
not at a position that lies under a nested statement. -/
theorem lastStmt_not_at_nested (body : List Stmt) (hnd : DistinctStmts body) (lastStmt s : Stmt)
    (p : Nat) (hlast : lastStmt ∈ body)
    (hs : s ∈ (body.map Node.stmt).flatMap Node.subStmts)
    (hp : p ∈ positionsUnder (.stmt s)) (hne : ∀ x, s ≠ .exprStmt p x) :
    lastStmt.isExprStmtAt p = false := by
  by_contra hcon
  obtain ⟨x, rfl⟩ := isExprStmtAt_iff.1 (by simpa using hcon)
  have hndc : ((body.map Node.stmt).flatMap positionsUnder).Nodup := by
    have : (positionsUnder (.stmt (.blockStmt body))).Nodup := hnd
    rw [positionsUnder_eq] at this
    exact (List.nodup_append.1 this).2.1
  exact hne x (eq_of_sibling_position p x s _ hndc (List.mem_map_of_mem _ hlast) hs hp)

theorem mem_nested_of_ne_body {body : List Stmt} {s : Stmt}
    (hs : s ∈ (Stmt.blockStmt body).subStmts) (hne : s ≠ .blockStmt body) :
    s ∈ (body.map Node.stmt).flatMap Node.subStmts := by
  have hs' : s ∈ (Node.stmt (.blockStmt body)).subStmts := hs
  rw [Node.subStmts_eq] at hs'
  simp only [Node.selfStmt, List.singleton_append, List.mem_cons] at hs'
  rcases hs' with h | h
  · exact absurd h hne
  · exact h

/-- The reports of a handler at the position of an expression statement of
its body, when the body has distinct positions and a last statement. -/
theorem reports_at (funcDecl : FuncDecl) (body : List Stmt) (w : String) (lastStmt : Stmt)
    (hh : isHTTPHandler funcDecl = true) (hb : funcDecl.body = some body)
    (hw : writerName funcDecl = some w) (hnd : DistinctStmts body)
    (hlast : getLastNonEmptyStatement body = some lastStmt) (p : Nat) (x : Expr)
    (hx : Stmt.exprStmt p x ∈ (Stmt.blockStmt body).subStmts) :
    ∃ reports, runFuncDecl funcDecl = some reports ∧
      reports.filter (fun d => d.pos == p)
        = visitReports body w lastStmt (.stmt (.exprStmt p x)) := by
  refine ⟨_, runFuncDecl_eq funcDecl body w lastStmt hh hb hw hlast, ?_⟩
  apply filter_reports_at (fun s => visitReports body w lastStmt (.stmt s)) _ p x _ hnd hx
  intro s d hd
  obtain ⟨y, rfl, _, _⟩ := visitReports_sound body w lastStmt s d hd
  rfl

theorem no_report_of_filter_eq_nil {reports : List Diagnostic} {p : Nat}
    (h : reports.filter (fun d => d.pos == p) = []) : ∀ d ∈ reports, d.pos ≠ p := by
  intro d hd hp
  have := List.filter_eq_nil_iff.1 h d hd
  simp [hp] at this

/-! ## The block-local guard -/

/-- C1: in a handler whose top-level body has a last non-empty statement, a
qualifying write `W` that sits directly in the statement list of a block at any
depth, and whose nearest following sibling that is neither empty nor a
declaration exists and is not a return, gets exactly one report, at the
position of `W`, whatever comes after that sibling in the block. -/
theorem write_followed_by_non_return_reported_once
    (funcDecl : FuncDecl) (body : List Stmt) (w : String) (lastStmt : Stmt)
    (hh : isHTTPHandler funcDecl = true) (hb : funcDecl.body = some body)
    (hw : writerName funcDecl = some w) (hnd : DistinctStmts body)
    (hlast : getLastNonEmptyStatement body = some lastStmt)
    (block pre post : List Stmt) (pos : Nat) (x : Expr) (next : Stmt)
    (hblock : Stmt.blockStmt block ∈ (Stmt.blockStmt body).subStmts)
    (hW : block = pre ++ Stmt.exprStmt pos x :: post)
    (hq : isWriteToResponseWriter x w = true)
    (hnext : nextNonEmpty post = some next) (hnr : next.isReturnStmt = false) :
    ∃ reports, runFuncDecl funcDecl = some reports ∧
      reports.filter (fun d => d.pos == pos) = [⟨pos, message⟩] := by
  have hWb : Stmt.exprStmt pos x ∈ block := by rw [hW]; simp
  have hWm : Stmt.exprStmt pos x ∈ (Stmt.blockStmt body).subStmts :=
    subStmts_trans (n := .stmt (.blockStmt body)) hblock (mem_subStmts_of_mem_block hWb)
  obtain ⟨reports, hrun, hfilter⟩ :=
    reports_at funcDecl body w lastStmt hh hb hw hnd hlast pos x hWm
  refine ⟨reports, hrun, ?_⟩
  have hnotlast : lastStmt.isExprStmtAt pos = false := by
    by_cases htop : block = body
    · have hbody : body = pre ++ Stmt.exprStmt pos x :: post := by rw [← htop, hW]
      have hmem : lastStmt ∈ post := by
        rw [hbody] at hlast
        exact getLastNonEmptyStatement_mem_post hlast hnext
      have hndb : (positionsUnder (.stmt (.blockStmt body))).Nodup := hnd
      rw [hbody] at hndb
      exact (siblings_not_at pre post pos x hndb).2 lastStmt hmem
    · apply lastStmt_not_at_nested body hnd lastStmt (.blockStmt block) pos
        (getLastNonEmptyStatement_mem hlast)
        (mem_nested_of_ne_body hblock (fun h => htop (by injection h)))
        (mem_positionsUnder.2 ⟨x, mem_subStmts_of_mem_block hWb⟩)
      intro y h
      cases h
  have hret : hasReturn post = false := by
    rw [hasReturn_eq, hnext]; exact hnr
  rw [hfilter, visitReports_in_block body w lastStmt hnd block pre post pos x x hblock hW]
  simp [hq, hnotlast, hret]

/-- C1 at `handler3`: the write at line 21 is followed by
`someOtherOperation()` and is reported once. -/
theorem write_followed_by_non_return_reported_once_handler3 :
    ∃ reports, runFuncDecl handler3 = some reports ∧
      reports.filter (fun d => d.pos == 21) = [⟨21, message⟩] :=
  write_followed_by_non_return_reported_once handler3 handler3Body "w"
    (.exprStmt 22 (plainCall "someOtherOperation")) (by decide) rfl rfl (by decide) rfl
    handler3Body [] [.exprStmt 22 (plainCall "someOtherOperation")] 21 (writeCall "hello")
    (.exprStmt 22 (plainCall "someOtherOperation")) (List.Mem.head _) rfl (by decide) rfl rfl

/-- C2: in a handler, a qualifying write `W` that sits in a block at any depth
and whose nearest following sibling in that block, after skipping empty and
declaration statements, is a return, gets no report at its position. -/
theorem write_followed_by_return_not_reported
    (funcDecl : FuncDecl) (body : List Stmt) (w : String)
    (hh : isHTTPHandler funcDecl = true) (hb : funcDecl.body = some body)
    (hw : writerName funcDecl = some w) (hnd : DistinctStmts body)
    (block pre post : List Stmt) (pos : Nat) (x : Expr) (next : Stmt)
    (hblock : Stmt.blockStmt block ∈ (Stmt.blockStmt body).subStmts)
    (hW : block = pre ++ Stmt.exprStmt pos x :: post)
    (hq : isWriteToResponseWriter x w = true)
    (hnext : nextNonEmpty post = some next) (hret : next.isReturnStmt = true) :
    ∃ reports, runFuncDecl funcDecl = some reports ∧ ∀ d ∈ reports, d.pos ≠ pos := by
  cases hlast : getLastNonEmptyStatement body with
  | none => exact ⟨[], runFuncDecl_eq_nil funcDecl body w hb hw hlast, by simp⟩
  | some lastStmt =>
    have hWb : Stmt.exprStmt pos x ∈ block := by rw [hW]; simp
    have hWm : Stmt.exprStmt pos x ∈ (Stmt.blockStmt body).subStmts :=
      subStmts_trans (n := .stmt (.blockStmt body)) hblock (mem_subStmts_of_mem_block hWb)
    obtain ⟨reports, hrun, hfilter⟩ :=
      reports_at funcDecl body w lastStmt hh hb hw hnd hlast pos x hWm
    refine ⟨reports, hrun, no_report_of_filter_eq_nil ?_⟩
    have hr : hasReturn post = true := by
      rw [hasReturn_eq, hnext]; exact hret
    rw [hfilter, visitReports_in_block body w lastStmt hnd block pre post pos x x hblock hW]
    simp [hq, hr]

/-- C2 at `handler7`: the write at line 57, inside the if block, is followed
by a return and is not reported. -/
theorem write_followed_by_return_not_reported_handler7 :
    ∃ reports, runFuncDecl handler7 = some reports ∧ ∀ d ∈ reports, d.pos ≠ 57 :=
  write_followed_by_return_not_reported handler7 handler7Body "w" (by decide) rfl rfl
    (by decide) [.exprStmt 57 (writeCall "post"), .returnStmt []] [] [.returnStmt []] 57
    (writeCall "post") (.returnStmt [])
    (List.Mem.tail _ (List.Mem.tail _ (List.Mem.head _)))
    rfl (by decide) rfl rfl

/-- C4: in a handler whose top-level body has a last non-empty statement, other
than the if statement in question, a qualifying write that is the last non-empty
statement of the block of an if statement (at any depth) gets exactly one
report, at its position, whatever follows the if statement and whatever returns
the function holds elsewhere. -/
theorem write_last_in_if_block_reported_once
    (funcDecl : FuncDecl) (body : List Stmt) (w : String) (lastStmt : Stmt)
    (hh : isHTTPHandler funcDecl = true) (hb : funcDecl.body = some body)
    (hw : writerName funcDecl = some w) (hnd : DistinctStmts body)
    (hlast : getLastNonEmptyStatement body = some lastStmt)
    (init : Option Stmt) (cond : Expr) (block : List Stmt) (els : Option Stmt)
    (hif : ifStmt init cond block els ∈ (Stmt.blockStmt body).subStmts)
    (_hne : lastStmt ≠ ifStmt init cond block els)
    (pos : Nat) (x : Expr)
    (hWlast : getLastNonEmptyStatement block = some (.exprStmt pos x))
    (hq : isWriteToResponseWriter x w = true) :
    ∃ reports, runFuncDecl funcDecl = some reports ∧
      reports.filter (fun d => d.pos == pos) = [⟨pos, message⟩] := by
  obtain ⟨pre, post, hW, hpost⟩ := getLastNonEmptyStatement_split hWlast
  have hWb : Stmt.exprStmt pos x ∈ block := by rw [hW]; simp
  have hbi : Stmt.blockStmt block ∈ (Node.stmt (ifStmt init cond block els)).subStmts := by
    unfold ifStmt
    apply mem_subStmts_of_mem_other
    simp
  have hblock : Stmt.blockStmt block ∈ (Stmt.blockStmt body).subStmts :=
    subStmts_trans (n := .stmt (.blockStmt body)) hif hbi
  have hWi : Stmt.exprStmt pos x ∈ (Node.stmt (ifStmt init cond block els)).subStmts :=
    subStmts_trans hbi (mem_subStmts_of_mem_block hWb)
  have hWm : Stmt.exprStmt pos x ∈ (Stmt.blockStmt body).subStmts :=
    subStmts_trans (n := .stmt (.blockStmt body)) hif hWi
  obtain ⟨reports, hrun, hfilter⟩ :=
    reports_at funcDecl body w lastStmt hh hb hw hnd hlast pos x hWm
  refine ⟨reports, hrun, ?_⟩
  have hnotlast : lastStmt.isExprStmtAt pos = false := by
    apply lastStmt_not_at_nested body hnd lastStmt (ifStmt init cond block els) pos
      (getLastNonEmptyStatement_mem hlast)
      (mem_nested_of_ne_body hif (by unfold ifStmt; intro h; cases h))
      (mem_positionsUnder.2 ⟨x, hWi⟩)
    intro y h
    unfold ifStmt at h
    cases h
  have hret : hasReturn post = false := by
    rw [hasReturn_eq, hpost]
  rw [hfilter, visitReports_in_block body w lastStmt hnd block pre post pos x x hblock hW]
  simp [hq, hnotlast, hret]

/-- C4 at `handler6`: the write at line 48 is last in the DELETE branch, the
function goes on with another write, and the write is reported once. -/
theorem write_last_in_if_block_reported_once_handler6 :
    ∃ reports, runFuncDecl handler6 = some reports ∧
      reports.filter (fun d => d.pos == 48) = [⟨48, message⟩] :=
  write_last_in_if_block_reported_once handler6 handler6Body "w"
    (.exprStmt 51 (writeCall "get")) (by decide) rfl rfl (by decide) rfl
    none (methodIs "DELETE") [.exprStmt 48 (writeCall "delete")] none
    (List.Mem.tail _ (List.Mem.tail _ (List.Mem.tail _ (List.Mem.tail _ (List.Mem.tail _
      (List.Mem.head _))))))
    (by unfold ifStmt; intro h; cases h) 48 (writeCall "delete") rfl (by decide)

/-! ## Handler detection and write classification -/

theorem isResponseWriter_iff (e : Expr) :
    isResponseWriter e = true ↔ e = .selectorExpr (.ident "http") "ResponseWriter" := by
  unfold isResponseWriter
  split
  · rename_i name sel
    by_cases h : name = "http" <;> simp [h]
  · rename_i hne
    constructor
    · intro h; cases h
    · intro h; exact absurd h (hne _ _)

theorem isHTTPRequest_iff (e : Expr) :
    isHTTPRequest e = true ↔ e = .starExpr (.selectorExpr (.ident "http") "Request") := by
  unfold isHTTPRequest
  split
  · rename_i name sel
    by_cases h : name = "http" <;> simp [h]
  · rename_i hne
    constructor
    · intro h; cases h
    · intro h; exact absurd h (hne _ _)

/-- C5: a function declaration that `isHTTPHandler` rejects has no report,
whatever its body holds. -/
theorem non_handler_no_reports (funcDecl : FuncDecl) (h : isHTTPHandler funcDecl = false) :
    runFuncDecl funcDecl = some [] := by
  unfold runFuncDecl
  simp [h]

/-- C5 at `notHandler`, whose first parameter has the type
`other.ResponseWriter` and whose body holds unguarded writes, one of them in a
function literal with the handler signature. -/
theorem non_handler_no_reports_notHandler :
    isHTTPHandler notHandler = false ∧ runFuncDecl notHandler = some [] :=
  ⟨by decide, non_handler_no_reports notHandler (by decide)⟩

/-- C6: `isHTTPHandler` is true exactly when the parameter list is present and
has two entries, the type of the first is the selector `http.ResponseWriter`
and the type of the second is the pointer to the selector `http.Request`. -/
theorem isHTTPHandler_iff (funcDecl : FuncDecl) :
    isHTTPHandler funcDecl = true ↔
      ∃ p0 p1, funcDecl.params = some [p0, p1] ∧
        p0.type = .selectorExpr (.ident "http") "ResponseWriter" ∧
        p1.type = .starExpr (.selectorExpr (.ident "http") "Request") := by
  obtain ⟨params, body⟩ := funcDecl
  unfold isHTTPHandler
  cases params with
  | none => simp
  | some list =>
    rcases list with _ | ⟨p0, _ | ⟨p1, _ | ⟨p2, rest⟩⟩⟩
    · simp
    · simp
    · simp only [List.length_cons, List.length_nil, bne_self_eq_false, Bool.false_eq_true,
        if_false, Bool.and_eq_true, isResponseWriter_iff, isHTTPRequest_iff]
      constructor
      · rintro ⟨h0, h1⟩
        exact ⟨p0, p1, rfl, h0, h1⟩
      · rintro ⟨q0, q1, heq, h0, h1⟩
        injection heq with heq
        injection heq with e0 heq
        injection heq with e1 _
        subst e0 e1
        exact ⟨h0, h1⟩
    · simp

theorem firstArgIsIdent_iff (args : List Expr) (w : String) :
    firstArgIsIdent args w = true ↔ ∃ rest, args = .ident w :: rest := by
  unfold firstArgIsIdent
  split
  · rename_i name rest
    simp
  · rename_i hne
    constructor
    · intro h; cases h
    · rintro ⟨rest, rfl⟩
      exact absurd rfl (hne _ _)

theorem isWriteToResponseWriter_call (name sel : String) (args : List Expr) (w : String) :
    isWriteToResponseWriter (.callExpr (.selectorExpr (.ident name) sel) args) w = true ↔
      (name = w ∨ ((name, sel) ∈ indirectWrites ∧ ∃ rest, args = .ident w :: rest)) := by
  have harg := firstArgIsIdent_iff args w
  unfold isWriteToResponseWriter
  by_cases hw : name = w
  · have hbeq : (name == w) = true := by simp [hw]
    simp only [hbeq, if_true, true_iff]
    exact Or.inl hw
  · simp only [beq_iff_eq, hw, if_false, false_or]
    by_cases h1 : name = "json"
    · subst h1
      by_cases hs : sel = "NewEncoder"
      · by_cases ha : args = [] <;>
          simp [isJSONEncoderWrite, indirectWrites, hs, ha, harg]
      · simp [isJSONEncoderWrite, indirectWrites, hs]
    · by_cases h2 : name = "fmt"
      · subst h2
        by_cases hs : isFmtPrint sel = true
        · have hs' : (sel = "Fprintf" ∨ sel = "Fprint") ∨ sel = "Fprintln" := by
            simpa [isFmtPrint] using hs
          have hmem : ("fmt", sel) ∈ indirectWrites := by
            rcases hs' with (h | h) | h <;> subst h <;> simp [indirectWrites]
          by_cases ha : args = [] <;>
            simp [isFmtWrite, hmem, hs, ha, harg]
        · have hs' : (¬ sel = "Fprintf" ∧ ¬ sel = "Fprint") ∧ ¬ sel = "Fprintln" := by
            simpa [isFmtPrint] using hs
          simp [isFmtWrite, indirectWrites, hs, hs'.1.1, hs'.1.2, hs'.2]
      · by_cases h3 : name = "io"
        · subst h3
          by_cases hs : sel = "Copy"
          · by_cases ha : args = [] <;>
              simp [isIOCopy, indirectWrites, hs, ha, harg]
          · simp [isIOCopy, indirectWrites, hs]
        · by_cases h4 : name = "render"
          · subst h4
            by_cases hs : sel = "Render"
            · by_cases ha : args = [] <;>
                simp [isRenderCall, indirectWrites, hs, ha, harg]
            · simp [isRenderCall, indirectWrites, hs]
          · simp [h1, h2, h3, h4, indirectWrites]

theorem isWriteToResponseWriter_shape (x : Expr) (w : String)
    (h : isWriteToResponseWriter x w = true) :
    ∃ name sel args, x = .callExpr (.selectorExpr (.ident name) sel) args := by
  unfold isWriteToResponseWriter at h
  split at h
  · exact ⟨_, _, _, rfl⟩
  · cases h

/-- C7: `isWriteToResponseWriter` is true exactly when the expression is a call
of a member `X.M` of an identifier `X`, and either `X` is the writer, or
`(X, M)` is one of the indirect write idioms and the first argument of the call
is the identifier of the writer; and a call of a member of an identifier other
than the writer whose argument list is empty, or whose first argument is not
the identifier of the writer, is not a write. -/
theorem isWriteToResponseWriter_iff (x : Expr) (w : String) :
    (isWriteToResponseWriter x w = true ↔
      ∃ name sel args, x = .callExpr (.selectorExpr (.ident name) sel) args ∧
        (name = w ∨ ((name, sel) ∈ indirectWrites ∧ ∃ rest, args = .ident w :: rest))) ∧
    (∀ name sel args, x = .callExpr (.selectorExpr (.ident name) sel) args → name ≠ w →
      (args = [] ∨ ∃ first rest, args = first :: rest ∧ first ≠ .ident w) →
      isWriteToResponseWriter x w = false) := by
  constructor
  · constructor
    · intro h
      obtain ⟨name, sel, args, rfl⟩ := isWriteToResponseWriter_shape x w h
      exact ⟨name, sel, args, rfl, (isWriteToResponseWriter_call name sel args w).1 h⟩
    · rintro ⟨name, sel, args, rfl, h⟩
      exact (isWriteToResponseWriter_call name sel args w).2 h
  · rintro name sel args rfl hne hargs
    by_contra hcon
    have htrue : isWriteToResponseWriter
        (.callExpr (.selectorExpr (.ident name) sel) args) w = true := by
      simpa using hcon
    rcases (isWriteToResponseWriter_call name sel args w).1 htrue with h | ⟨_, rest, hrest⟩
    · exact hne h
    · rcases hargs with h | ⟨first, rest', h, hfirst⟩
      · rw [h] at hrest; cases hrest
      · rw [h] at hrest
        injection hrest with h1 _
        exact hfirst h1

/-- C7 at the calls `fmt.Fprintf(w, "x")`, which is a write to `w`, and
`fmt.Fprintf(os.Stdout, "x")`, whose first argument is a selector and which is
not. -/
theorem isWriteToResponseWriter_iff_fprintf :
    isWriteToResponseWriter
        (.callExpr (.selectorExpr (.ident "fmt") "Fprintf") [.ident "w", basicLit "x"]) "w"
        = true ∧
      isWriteToResponseWriter
        (.callExpr (.selectorExpr (.ident "fmt") "Fprintf")
          [.selectorExpr (.ident "os") "Stdout", basicLit "x"]) "w" = false :=
  ⟨(isWriteToResponseWriter_iff _ "w").1.2
      ⟨"fmt", "Fprintf", [.ident "w", basicLit "x"], rfl, Or.inr ⟨by decide, _, rfl⟩⟩,
    (isWriteToResponseWriter_iff _ "w").2 "fmt" "Fprintf"
      [.selectorExpr (.ident "os") "Stdout", basicLit "x"] rfl (by decide)
      (Or.inr ⟨_, _, rfl, fun h => by cases h⟩)⟩

/-- C8, the code at the failing input: for every writer name `w` the statement
`json.NewEncoder(w)` alone is classified as a write, but the chained call
`json.NewEncoder(w).Encode(v)` is not, because the function of the outer call is
a member of a call and not of an identifier; the handler
`json.NewEncoder(w).Encode(v); other()` has no report. -/
theorem chained_encoder_call_not_classified :
    (∀ w : String,
        isWriteToResponseWriter
          (.callExpr (.selectorExpr (.ident "json") "NewEncoder") [.ident w]) w = true) ∧
      (∀ (w : String) (v : Expr), isWriteToResponseWriter (encodeCall w v) w = false) ∧
      runFuncDecl encoderHandler = some [] := by
  refine ⟨?_, ?_, by decide⟩
  · intro w
    by_cases h : "json" = w <;>
      simp [isWriteToResponseWriter, isJSONEncoderWrite, firstArgIsIdent, h]
  · intro w v
    rfl

/-- C9, the code at the failing input: the analysis of a declaration panics
exactly when `isHTTPHandler` accepts it, its body is present and its first
parameter entry has no name; so a missing parameter list and a missing body
are skipped, but for the declaration
`func h(http.ResponseWriter, *http.Request) { someOtherOperation() }`
the analysis panics at `Names[0]`, and with it the run over any package that
holds the declaration. -/
theorem unnamed_writer_panics :
    (∀ funcDecl : FuncDecl, runFuncDecl funcDecl = none ↔
        (isHTTPHandler funcDecl = true ∧ funcDecl.body.isSome = true ∧
          writerName funcDecl = none)) ∧
      (∀ body, runFuncDecl ⟨none, body⟩ = some []) ∧
      (∀ params, runFuncDecl ⟨params, none⟩ = some []) ∧
      isHTTPHandler unnamedHandler = true ∧ runFuncDecl unnamedHandler = none ∧
      run [handler1, unnamedHandler, handler3] = none := by
  refine ⟨?_, ?_, ?_, by decide, by decide, by decide⟩
  · intro funcDecl
    unfold runFuncDecl
    by_cases hh : isHTTPHandler funcDecl = true
    · cases hb : funcDecl.body with
      | none => simp [hh]
      | some body =>
        cases hw : writerName funcDecl with
        | none => simp [hh]
        | some w =>
          cases hl : getLastNonEmptyStatement body <;> simp [hh, hl]
    · simp [hh]
  · intro body
    rfl
  · intro params
    unfold runFuncDecl
    simp

/-! ## Statements outside every block -/

theorem not_mem_two_children (f : Node → List Nat) (p : Nat) (c1 c2 : Node) (hne : c1 ≠ c2)
    (h1 : p ∈ f c1) (h2 : p ∈ f c2) (cs : List Node) (hnd : (cs.flatMap f).Nodup)
    (hc1 : c1 ∈ cs) (hc2 : c2 ∈ cs) : False := by
  induction cs with
  | nil => simp at hc1
  | cons c cs ih =>
    rw [List.flatMap_cons] at hnd
    obtain ⟨_, nd2, hdis⟩ := List.nodup_append.1 hnd
    rcases List.mem_cons.1 hc1 with e1 | m1 <;> rcases List.mem_cons.1 hc2 with e2 | m2
    · exact hne (e1.trans e2.symm)
    · exact hdis (e1 ▸ h1) (List.mem_flatMap.2 ⟨c2, m2, h2⟩)
    · exact hdis (e2 ▸ h2) (List.mem_flatMap.2 ⟨c1, m1, h1⟩)
    · exact ih nd2 m1 m2

/-- In a tree with distinct positions, an expression statement that is a child
of a statement other than a block (a case clause, a label, ...) is in the list
of no block. -/
theorem child_of_other_not_in_block (p : Nat) (x y : Expr) (k : String) (cs : List Node)
    (l : List Stmt) (hx : Node.stmt (.exprStmt p x) ∈ cs) (hy : Stmt.exprStmt p y ∈ l)
    (n : Node) :
    (positionsUnder n).Nodup → Stmt.other k cs ∈ n.subStmts →
      Stmt.blockStmt l ∈ n.subStmts → False := by
  have hpo : p ∈ positionsUnder (.stmt (.other k cs)) :=
    mem_positionsUnder.2 ⟨x, mem_subStmts_of_mem_other hx⟩
  have hpl : p ∈ positionsUnder (.stmt (.blockStmt l)) :=
    mem_positionsUnder.2 ⟨y, mem_subStmts_of_mem_block hy⟩
  induction n using Node.induction_on_children with
  | step n ih =>
    intro hnd ho hl
    have hndc : (n.children.flatMap positionsUnder).Nodup := by
      rw [positionsUnder_eq] at hnd
      exact (List.nodup_append.1 hnd).2.1
    rw [Node.subStmts_eq] at ho hl
    rcases List.mem_append.1 hl with hl | hl
    · have hn := mem_selfStmt hl
      subst hn
      simp only [Node.selfStmt, List.singleton_append, List.mem_cons] at ho
      rcases ho with ho | ho
      · cases ho
      · have := eq_of_sibling_position p y (.other k cs) _ hndc
          (by simp [Node.children]; exact hy) ho hpo
        cases this
    · rcases List.mem_append.1 ho with ho | ho
      · have hn := mem_selfStmt ho
        subst hn
        have := eq_of_sibling_position p x (.blockStmt l) _ hndc
          (by simp [Node.children]; exact hx) hl hpl
        cases this
      · obtain ⟨c1, hc1, ho1⟩ := List.mem_flatMap.1 ho
        obtain ⟨c2, hc2, hl2⟩ := List.mem_flatMap.1 hl
        by_cases hcc : c1 = c2
        · subst hcc
          have hndc1 : (positionsUnder c1).Nodup :=
            List.Nodup.sublist (sublist_flatMap_of_mem positionsUnder _ c1 hc1) hndc
          exact ih c1 hc1 hndc1 ho1 hl2
        · exact not_mem_two_children positionsUnder p c1 c2 hcc
            (positionsUnder_mono ho1 hpo) (positionsUnder_mono hl2 hpl) _ hndc hc1 hc2

/-- C10, the code at the failing input: in `switchHandler` the write at line 2
sits directly in the statement list of the clause `case "DELETE":`, its next
sibling is the call `other()`, not a return, and the handler has no report,
because `findParentBlock` looks for the write in the lists of block statements
only and finds no block for it.  The same two statements put in braces inside
the clause, in `bracedSwitchHandler`, do get the report at the write. -/
theorem case_clause_write_not_reported_switchHandler :
    isHTTPHandler switchHandler = true ∧ writerName switchHandler = some "w" ∧
      switchHandler.body = some
        [switchStmt none (some (.selectorExpr (.ident "r") "Method"))
           [caseClause [basicLit "DELETE"]
             [.exprStmt 2 (writeCall "delete"), .exprStmt 3 (plainCall "other")]],
         .exprStmt 5 (writeCall "get")] ∧
      isWriteToResponseWriter (writeCall "delete") "w" = true ∧
      nextNonEmpty [Stmt.exprStmt 3 (plainCall "other")]
        = some (.exprStmt 3 (plainCall "other")) ∧
      (Stmt.exprStmt 3 (plainCall "other")).isReturnStmt = false ∧
      findParentBlock (.stmt (.blockStmt switchHandlerBody)) 2 = none ∧
      runFuncDecl switchHandler = some [] ∧
      findParentBlock (.stmt (.blockStmt bracedSwitchBody)) 2
        = some [.exprStmt 2 (writeCall "delete"), .exprStmt 3 (plainCall "other")] ∧
      runFuncDecl bracedSwitchHandler = some [⟨2, message⟩] :=
  ⟨by decide, rfl, rfl, by decide, rfl, rfl, rfl, by decide, rfl, by decide⟩

/-- The reach of the missed case of `findParentBlock`: in a handler, an
expression statement that sits directly in the statement list of a case clause
of a switch or of a communication clause of a select has no block that holds
it, and gets no report, whatever its siblings are. -/
theorem clause_write_not_reported
    (funcDecl : FuncDecl) (body : List Stmt) (w : String)
    (hh : isHTTPHandler funcDecl = true) (hb : funcDecl.body = some body)
    (hw : writerName funcDecl = some w) (hnd : DistinctStmts body)
    (clause : Stmt) (list : List Expr) (comm : Option Stmt) (clauseBody : List Stmt)
    (hkind : clause = caseClause list clauseBody ∨ clause = commClause comm clauseBody)
    (hclause : clause ∈ (Stmt.blockStmt body).subStmts)
    (pos : Nat) (x : Expr) (hW : Stmt.exprStmt pos x ∈ clauseBody)
    (_hq : isWriteToResponseWriter x w = true) :
    ∃ reports, runFuncDecl funcDecl = some reports ∧ ∀ d ∈ reports, d.pos ≠ pos := by
  cases hlast : getLastNonEmptyStatement body with
  | none => exact ⟨[], runFuncDecl_eq_nil funcDecl body w hb hw hlast, by simp⟩
  | some lastStmt =>
    obtain ⟨k, cs, hk, hcs⟩ : ∃ k cs, clause = Stmt.other k cs ∧
        Node.stmt (.exprStmt pos x) ∈ cs := by
      rcases hkind with h | h
      · exact ⟨_, _, h, by simp [hW]⟩
      · exact ⟨_, _, h, by simp [hW]⟩
    subst hk
    have hWm : Stmt.exprStmt pos x ∈ (Stmt.blockStmt body).subStmts :=
      subStmts_trans (n := .stmt (.blockStmt body)) hclause (mem_subStmts_of_mem_other hcs)
    obtain ⟨reports, hrun, hfilter⟩ :=
      reports_at funcDecl body w lastStmt hh hb hw hnd hlast pos x hWm
    refine ⟨reports, hrun, no_report_of_filter_eq_nil ?_⟩
    rw [hfilter]
    apply visitReports_no_block
    apply findParentBlock_eq_none
    intro l hl y hy
    exact child_of_other_not_in_block pos x y k cs l hcs hy (.stmt (.blockStmt body)) hnd
      hclause hl

/-- The missed case at `switchHandler`: the write at line 2, in the clause
`case "DELETE":`, has no report. -/
theorem clause_write_not_reported_switchHandler :
    ∃ reports, runFuncDecl switchHandler = some reports ∧ ∀ d ∈ reports, d.pos ≠ 2 :=
  clause_write_not_reported switchHandler switchHandlerBody "w" (by decide) rfl rfl (by decide)
    (caseClause [basicLit "DELETE"]
      [.exprStmt 2 (writeCall "delete"), .exprStmt 3 (plainCall "other")])
    [basicLit "DELETE"] none
    [.exprStmt 2 (writeCall "delete"), .exprStmt 3 (plainCall "other")]
    (Or.inl rfl)
    (List.Mem.tail _ (List.Mem.tail _ (List.Mem.tail _ (List.Mem.head _))))
    2 (writeCall "delete") (List.Mem.head _) (by decide)

/-! ## Handlers without a last statement, and the arity of a handler -/

theorem getLastNonEmptyStatement_eq_none_iff (stmts : List Stmt) :
    getLastNonEmptyStatement stmts = none ↔ ∀ s ∈ stmts, isEmptyStatement s = true := by
  unfold getLastNonEmptyStatement
  rw [List.find?_eq_none]
  constructor
  · intro h s hs
    simpa using h s (List.mem_reverse.2 hs)
  · intro h s hs
    simpa using h s (List.mem_reverse.1 hs)

/-- The analysis of a declaration that completes either reports nothing or is
the walk over the body of a handler with a named writer and a last statement. -/
theorem runFuncDecl_cases (funcDecl : FuncDecl) (reports : List Diagnostic)
    (hrun : runFuncDecl funcDecl = some reports) :
    reports = [] ∨ ∃ body w lastStmt, isHTTPHandler funcDecl = true ∧
      funcDecl.body = some body ∧ writerName funcDecl = some w ∧
      getLastNonEmptyStatement body = some lastStmt ∧
      reports = (Stmt.blockStmt body).subStmts.flatMap
        (fun s => visitReports body w lastStmt (.stmt s)) := by
  by_cases hh : isHTTPHandler funcDecl = true
  · cases hb : funcDecl.body with
    | none =>
      left
      unfold runFuncDecl at hrun
      simp [hh, hb] at hrun
      exact hrun
    | some body =>
      cases hw : writerName funcDecl with
      | none =>
        unfold runFuncDecl at hrun
        simp [hh, hb, hw] at hrun
      | some w =>
        cases hl : getLastNonEmptyStatement body with
        | none =>
          left
          rw [runFuncDecl_eq_nil funcDecl body w hb hw hl] at hrun
          injection hrun with hrun
          exact hrun.symm
        | some lastStmt =>
          right
          rw [runFuncDecl_eq funcDecl body w lastStmt hh hb hw hl] at hrun
          injection hrun with hrun
          exact ⟨body, w, lastStmt, hh, rfl, rfl, hl, hrun.symm⟩
  · left
    unfold runFuncDecl at hrun
    simp [hh] at hrun
    exact hrun

/-- C11, the claim fails: the top-level body of `declOnlyHandler` is the single
declaration `var _ = func() { w.Write([]byte("x")); other() }`, so it has no
last statement; the write in the block of the function literal qualifies and is
followed by the call `other()`, not by a return; and the handler has no
report. -/
theorem nested_write_in_declaration_only_body_not_reported :
    isHTTPHandler declOnlyHandler = true ∧ writerName declOnlyHandler = some "w" ∧
      declOnlyHandler.body = some declOnlyBody ∧
      (∀ s ∈ declOnlyBody, isEmptyStatement s = true) ∧
      getLastNonEmptyStatement declOnlyBody = none ∧
      DistinctStmts declOnlyBody ∧
      Stmt.blockStmt declOnlyBlock ∈ (Stmt.blockStmt declOnlyBody).subStmts ∧
      declOnlyBlock = [] ++ Stmt.exprStmt 2 (writeCall "x") :: [.exprStmt 3 (plainCall "other")] ∧
      isWriteToResponseWriter (writeCall "x") "w" = true ∧
      nextNonEmpty [Stmt.exprStmt 3 (plainCall "other")]
        = some (.exprStmt 3 (plainCall "other")) ∧
      (Stmt.exprStmt 3 (plainCall "other")).isReturnStmt = false ∧
      runFuncDecl declOnlyHandler = some [] := by
  refine ⟨by decide, rfl, rfl, ?_, rfl, by decide,
    List.Mem.tail _ (List.Mem.tail _ (List.Mem.head _)), rfl, by decide, rfl, rfl, by decide⟩
  intro s hs
  simp only [declOnlyBody, List.mem_singleton] at hs
  subst hs
  rfl

/-- C11, amended: for a handler whose top-level body consists entirely of empty
and declaration statements, there is no last statement and `run` returns before
it walks the body: the handler has no report, whatever is nested in its
declarations. -/
theorem declaration_only_body_no_reports
    (funcDecl : FuncDecl) (body : List Stmt) (w : String)
    (_hh : isHTTPHandler funcDecl = true) (hb : funcDecl.body = some body)
    (hw : writerName funcDecl = some w)
    (hall : ∀ s ∈ body, isEmptyStatement s = true) :
    getLastNonEmptyStatement body = none ∧ runFuncDecl funcDecl = some [] := by
  have hl := (getLastNonEmptyStatement_eq_none_iff body).2 hall
  exact ⟨hl, runFuncDecl_eq_nil funcDecl body w hb hw hl⟩

/-- C11, amended, at `declOnlyHandler`. -/
theorem declaration_only_body_no_reports_declOnlyHandler :
    getLastNonEmptyStatement declOnlyBody = none ∧ runFuncDecl declOnlyHandler = some [] :=
  declaration_only_body_no_reports declOnlyHandler declOnlyBody "w" (by decide) rfl rfl
    (fun s hs => by
      simp only [declOnlyBody, List.mem_singleton] at hs
      subst hs
      rfl)

/-- C12, the code at the failing inputs: `isHTTPHandler` counts the entries of
the parameter list, not the parameters they declare.  It accepts only lists of
two entries, but the declarations
`func h(w, w2 http.ResponseWriter, r *http.Request) { w.Write(..); other() }` and
`func h(w http.ResponseWriter, r, r2 *http.Request) { w.Write(..); other() }`
declare three parameters in two entries: `isHTTPHandler` accepts both and
`run` reports the write of each. -/
theorem grouped_parameters_accepted :
    (∀ funcDecl : FuncDecl, isHTTPHandler funcDecl = true →
        ∃ list, funcDecl.params = some list ∧ list.length = 2) ∧
      numParams groupedWriterHandler = 3 ∧ isHTTPHandler groupedWriterHandler = true ∧
      runFuncDecl groupedWriterHandler = some [⟨2, message⟩] ∧
      numParams groupedRequestHandler = 3 ∧ isHTTPHandler groupedRequestHandler = true ∧
      runFuncDecl groupedRequestHandler = some [⟨2, message⟩] := by
  refine ⟨?_, by decide, by decide, by decide, by decide, by decide, by decide⟩
  intro funcDecl h
  unfold isHTTPHandler at h
  cases hp : funcDecl.params with
  | none => simp [hp] at h
  | some list =>
    refine ⟨list, rfl, ?_⟩
    by_contra hne
    simp [hp, hne] at h

/-! ## The sequence of reports -/

/-- The list `subStmts` is the order of the walk: the callback that records
the statements it visits collects exactly that list. -/
theorem inspect_collectVisit (n : Node) :
    ∀ acc : List Stmt, n.inspect collectVisit acc = acc ++ n.subStmts := by
  induction n using Node.induction_on_children with
  | step n ih =>
    intro acc
    have hchildren : ∀ cs : List Node, (∀ c ∈ cs, c ∈ n.children) → ∀ a : List Stmt,
        inspectChildren collectVisit cs a = a ++ cs.flatMap Node.subStmts := by
      intro cs
      induction cs with
      | nil => intro _ a; simp [inspectChildren]
      | cons c cs ihcs =>
        intro hsub a
        have hc := ih c (hsub c (List.mem_cons_self _ _))
        have hrest := ihcs (fun c' hc' => hsub c' (List.mem_cons_of_mem _ hc'))
        simp only [inspectChildren, List.foldl_cons] at hrest ⊢
        rw [hc, hrest]
        simp
    rw [Node.inspect_eq]
    simp only [collectVisit, if_true]
    rw [hchildren n.children (fun _ h => h), Node.subStmts_eq n, List.append_assoc]

theorem walkOrder_eq (funcDecl : FuncDecl) (body : List Stmt) (hb : funcDecl.body = some body) :
    walkOrder funcDecl = (Stmt.blockStmt body).subStmts := by
  unfold walkOrder
  rw [hb]
  simp [inspect_collectVisit, Node.subStmts]

/-- The callback of `run` reports nothing at a statement, or one diagnostic
at an expression statement that is a write. -/
theorem visitReports_cases (body : List Stmt) (w : String) (lastStmt : Stmt) (s : Stmt) :
    visitReports body w lastStmt (.stmt s) = [] ∨
      ∃ p x, s = .exprStmt p x ∧ isWriteToResponseWriter x w = true ∧
        visitReports body w lastStmt (.stmt s) = [⟨p, message⟩] := by
  cases hv : visitReports body w lastStmt (.stmt s) with
  | nil => exact Or.inl rfl
  | cons d ds =>
    right
    obtain ⟨x, hs, hq, hm⟩ := visitReports_sound body w lastStmt s d (by rw [hv]; simp)
    refine ⟨d.pos, x, hs, hq, ?_⟩
    have hlen : (visitReports body w lastStmt (.stmt s)).length ≤ 1 := by
      unfold visitReports runVisit
      split
      · split
        · simp
        · split
          · simp
          · split
            · simp
            · split
              · simp
              · split <;> simp
      · simp
    rw [hv] at hlen
    have hds : ds = [] := by
      cases ds with
      | nil => rfl
      | cons _ _ => simp at hlen
    subst hds
    cases d with
    | mk pos msg =>
      simp only at hm
      subst hm
      rfl

/-- The reports made over a list of statements come from a sublist of it, one
report for each of its members, in the order of the list. -/
theorem reports_of_sublist (body : List Stmt) (w : String) (lastStmt : Stmt) (S : List Stmt) :
    ∃ writes : List (Nat × Expr),
      S.flatMap (fun s => visitReports body w lastStmt (.stmt s))
        = writes.map (fun pw => (⟨pw.1, message⟩ : Diagnostic)) ∧
      (writes.map (fun pw => Stmt.exprStmt pw.1 pw.2)).Sublist S ∧
      ∀ pw ∈ writes, isWriteToResponseWriter pw.2 w = true := by
  induction S with
  | nil => exact ⟨[], rfl, List.Sublist.slnil, by simp⟩
  | cons s S ih =>
    obtain ⟨writes, hrep, hsub, hq⟩ := ih
    rcases visitReports_cases body w lastStmt s with h | ⟨p, x, hs, hx, h⟩
    · refine ⟨writes, ?_, hsub.cons s, hq⟩
      rw [List.flatMap_cons, h, hrep, List.nil_append]
    · refine ⟨(p, x) :: writes, ?_, ?_, ?_⟩
      · rw [List.flatMap_cons, h, hrep]
        rfl
      · rw [hs]
        exact List.Sublist.cons_cons _ hsub
      · intro pw hpw
        rcases List.mem_cons.1 hpw with e | m
        · subst e; exact hx
        · exact hq pw m

/-- C13: for every function declaration whose analysis completes, the reports
are, in order, one diagnostic for each member of a sublist of the statements in
the order of the walk of `ast.Inspect`: each diagnostic has the fixed message,
which is the text the claim quotes, and the position of its statement, which is an expression statement classified as a
write for the writer of the declaration; and in a body with distinct positions
no two diagnostics have the same position. -/
theorem reports_one_per_write_in_walk_order (funcDecl : FuncDecl) (reports : List Diagnostic)
    (hrun : runFuncDecl funcDecl = some reports) :
    message = "response write operation must be followed by return unless it's the last statement" ∧
    ∃ writes : List (Nat × Expr),
      reports = writes.map (fun pw => (⟨pw.1, message⟩ : Diagnostic)) ∧
      (writes.map (fun pw => Stmt.exprStmt pw.1 pw.2)).Sublist (walkOrder funcDecl) ∧
      (∀ pw ∈ writes, ∃ w, writerName funcDecl = some w ∧
        isWriteToResponseWriter pw.2 w = true) ∧
      (∀ body, funcDecl.body = some body → DistinctStmts body →
        (reports.map (fun d => d.pos)).Nodup) := by
  refine ⟨rfl, ?_⟩
  rcases runFuncDecl_cases funcDecl reports hrun with h | ⟨body, w, lastStmt, _, hb, hw, _, h⟩
  · subst h
    exact ⟨[], rfl, List.nil_sublist _, by simp, by simp⟩
  · obtain ⟨writes, hrep, hsub, hq⟩ :=
      reports_of_sublist body w lastStmt (Stmt.blockStmt body).subStmts
    rw [← h] at hrep
    refine ⟨writes, hrep, ?_, fun pw hpw => ⟨w, hw, hq pw hpw⟩, ?_⟩
    · rw [walkOrder_eq funcDecl body hb]
      exact hsub
    · intro body' hb' hnd
      rw [hb] at hb'
      injection hb' with hb'
      subst hb'
      have hgen : ∀ l : List (Nat × Expr),
          (l.map (fun pw => (⟨pw.1, message⟩ : Diagnostic))).map (fun d => d.pos)
            = (l.map (fun pw => Stmt.exprStmt pw.1 pw.2)).filterMap Stmt.exprStmtPos := by
        intro l
        induction l with
        | nil => rfl
        | cons a l ih => simp only [List.map_cons, List.filterMap_cons, Stmt.exprStmtPos, ih]
      have hpos : reports.map (fun d => d.pos)
          = (writes.map (fun pw => Stmt.exprStmt pw.1 pw.2)).filterMap Stmt.exprStmtPos := by
        rw [hrep, hgen]
      rw [hpos]
      exact List.Nodup.sublist (hsub.filterMap _) hnd

/-- C13 at `handler8`: the only report is the one for the write at line 79. -/
theorem reports_one_per_write_in_walk_order_handler8 :
    message = "response write operation must be followed by return unless it's the last statement" ∧
    ∃ writes : List (Nat × Expr),
      [(⟨79, message⟩ : Diagnostic)] = writes.map (fun pw => (⟨pw.1, message⟩ : Diagnostic)) ∧
      (writes.map (fun pw => Stmt.exprStmt pw.1 pw.2)).Sublist (walkOrder handler8) ∧
      (∀ pw ∈ writes, ∃ w, writerName handler8 = some w ∧
        isWriteToResponseWriter pw.2 w = true) ∧
      (∀ body, handler8.body = some body → DistinctStmts body →
        (([(⟨79, message⟩ : Diagnostic)]).map (fun d => d.pos)).Nodup) :=
  reports_one_per_write_in_walk_order handler8 [⟨79, message⟩] (by decide)

/-! ## `getLastNonEmptyStatement` -/

theorem isEmptyStatement_iff (s : Stmt) :
    isEmptyStatement s = true ↔ (s = .emptyStmt ∨ ∃ decl, s = .declStmt decl) := by
  cases s <;> simp [isEmptyStatement]

theorem getLastNonEmptyStatement_append (pre post : List Stmt) (s : Stmt)
    (hs : isEmptyStatement s = false) (hpost : ∀ t ∈ post, isEmptyStatement t = true) :
    getLastNonEmptyStatement (pre ++ s :: post) = some s := by
  unfold getLastNonEmptyStatement
  rw [List.reverse_append, List.reverse_cons, List.append_assoc, List.find?_append]
  have hnone : List.find? (fun stmt => !isEmptyStatement stmt) post.reverse = none := by
    rw [List.find?_eq_none]
    intro t ht
    simp [hpost t (List.mem_reverse.1 ht)]
  rw [hnone]
  simp [hs]

theorem getLastNonEmptyStatement_not_empty {stmts : List Stmt} {s : Stmt}
    (h : getLastNonEmptyStatement stmts = some s) : isEmptyStatement s = false := by
  unfold getLastNonEmptyStatement at h
  have := (List.find?_eq_some.1 h).1
  simpa using this

theorem nextNonEmpty_eq_none_iff (post : List Stmt) :
    nextNonEmpty post = none ↔ ∀ t ∈ post, isEmptyStatement t = true := by
  unfold nextNonEmpty
  rw [List.find?_eq_none]
  constructor
  · intro h t ht
    simpa using h t ht
  · intro h t ht
    simpa using h t ht

/-- C14: `getLastNonEmptyStatement` returns nil exactly when every statement of
the list is an empty statement or a declaration statement, as for the empty
list; and it returns a statement `s` exactly when `s` stands at an index of the
list, is neither, and every statement at a greater index is an empty statement
or a declaration statement. -/
theorem getLastNonEmptyStatement_spec (stmts : List Stmt) :
    (∀ s, isEmptyStatement s = true ↔ (s = .emptyStmt ∨ ∃ decl, s = .declStmt decl)) ∧
      getLastNonEmptyStatement [] = none ∧
      (getLastNonEmptyStatement stmts = none ↔ ∀ s ∈ stmts, isEmptyStatement s = true) ∧
      (∀ s, getLastNonEmptyStatement stmts = some s ↔
        ∃ i : Nat, stmts[i]? = some s ∧ isEmptyStatement s = false ∧
          ∀ (j : Nat) (t : Stmt), i < j → stmts[j]? = some t → isEmptyStatement t = true) := by
  refine ⟨isEmptyStatement_iff, rfl, getLastNonEmptyStatement_eq_none_iff stmts, ?_⟩
  intro s
  constructor
  · intro h
    obtain ⟨pre, post, hsplit, hpost⟩ := getLastNonEmptyStatement_split h
    refine ⟨pre.length, ?_, getLastNonEmptyStatement_not_empty h, ?_⟩
    · rw [hsplit, List.getElem?_append_right (Nat.le_refl _)]
      simp
    · intro j t hj ht
      rw [hsplit, List.getElem?_append_right (Nat.le_of_lt hj)] at ht
      obtain ⟨k, hk⟩ : ∃ k, j - pre.length = k + 1 := ⟨j - pre.length - 1, by omega⟩
      rw [hk, List.getElem?_cons_succ] at ht
      exact (nextNonEmpty_eq_none_iff post).1 hpost t (List.getElem?_mem ht)
  · rintro ⟨i, hi, hs, hafter⟩
    obtain ⟨hlt, hget⟩ := List.getElem?_eq_some.1 hi
    have hsplit : stmts = stmts.take i ++ s :: stmts.drop (i + 1) := by
      rw [← hget, List.getElem_cons_drop, List.take_append_drop]
    rw [hsplit]
    apply getLastNonEmptyStatement_append _ _ s hs
    intro t ht
    obtain ⟨k, hk⟩ := List.mem_iff_getElem?.1 ht
    rw [List.getElem?_drop] at hk
    exact hafter (i + 1 + k) t (by omega) hk

/-! ## The exemption of the last statement, and the candidates -/

/-- C16: every diagnostic of a declaration is positioned at an expression
statement of the body that is a write for the writer; a declaration without
such a statement has no diagnostic; and when the walk visits an assignment, a
defer statement, a go statement, or an expression such as the call inside one
of them, the callback of `run` reports nothing, whatever the body holds. -/
theorem only_expression_statements_reported (funcDecl : FuncDecl) (reports : List Diagnostic)
    (hrun : runFuncDecl funcDecl = some reports) :
    (∀ d ∈ reports, ∃ body w x, funcDecl.body = some body ∧ writerName funcDecl = some w ∧
        Stmt.exprStmt d.pos x ∈ (Stmt.blockStmt body).subStmts ∧
        isWriteToResponseWriter x w = true) ∧
      (∀ body w, funcDecl.body = some body → writerName funcDecl = some w →
        (∀ pos x, Stmt.exprStmt pos x ∈ (Stmt.blockStmt body).subStmts →
          isWriteToResponseWriter x w = false) → reports = []) ∧
      (∀ (body : List Stmt) (w : String) (lastStmt : Stmt) (acc : List Diagnostic)
          (lhs rhs : List Expr) (call : Expr),
        runVisit body w lastStmt (.stmt (assignStmt lhs rhs)) acc = (acc, true) ∧
        runVisit body w lastStmt (.stmt (deferStmt call)) acc = (acc, true) ∧
        runVisit body w lastStmt (.stmt (goStmt call)) acc = (acc, true) ∧
        runVisit body w lastStmt (.expr call) acc = (acc, true)) := by
  have hfirst : ∀ d ∈ reports, ∃ body w x, funcDecl.body = some body ∧
      writerName funcDecl = some w ∧
      Stmt.exprStmt d.pos x ∈ (Stmt.blockStmt body).subStmts ∧
      isWriteToResponseWriter x w = true := by
    intro d hd
    rcases runFuncDecl_cases funcDecl reports hrun with h | ⟨body, w, lastStmt, _, hb, hw, _, h⟩
    · rw [h] at hd; simp at hd
    · rw [h] at hd
      obtain ⟨s, hs, hds⟩ := List.mem_flatMap.1 hd
      obtain ⟨x, hx, hq, _⟩ := visitReports_sound body w lastStmt s d hds
      exact ⟨body, w, x, hb, hw, hx ▸ hs, hq⟩
  refine ⟨hfirst, ?_, ?_⟩
  · intro body w hb hw hnone
    cases reports with
    | nil => rfl
    | cons d ds =>
      exfalso
      obtain ⟨body', w', x, hb', hw', hx, hq⟩ := hfirst d (List.mem_cons_self _ _)
      rw [hb] at hb'
      rw [hw] at hw'
      injection hb' with hb'
      injection hw' with hw'
      subst hb' hw'
      rw [hnone d.pos x hx] at hq
      cases hq
  · intro body w lastStmt acc lhs rhs call
    exact ⟨rfl, rfl, rfl, rfl⟩

/-- C16 at `assignHandler`, whose body is
`_, err := w.Write(..); defer w.Write(..); go w.Write(..); other()`: the handler
has no report, and none is made at the assignment. -/
theorem only_expression_statements_reported_assignHandler :
    runFuncDecl assignHandler = some [] ∧
      runVisit assignBody "w" (.exprStmt 5 (plainCall "other"))
        (.stmt (assignStmt [.ident "_", .ident "err"] [writeCall "x"])) [] = ([], true) :=
  ⟨by decide,
    ((only_expression_statements_reported assignHandler [] (by decide)).2.2 assignBody "w"
      (.exprStmt 5 (plainCall "other")) [] [.ident "_", .ident "err"] [writeCall "x"]
      (writeCall "x")).1⟩

end HttpReturnChecker
